import Mathlib

/-! Verification of the qdb service core, `pkg/service/main.go`.

A shallow embedding of the functions of `pkg/service/main.go`:

* `getRandomHex` and the run identifier allocated by `Serve`;
* `session`, the argument check in front of every command handler;
* `Serve` itself, as a transition system driven by a schedule: the main thread
  with its stack of deferred calls and one goroutine per accepted connection;
* the replication backlog and the sync decision, whose code is in other files
  of the repository and is modelled from the specification.

Bytes are natural numbers. The counters of `Handler.counters` and the offsets of
`Handler.repl` are `int64` in the source and unbounded integers here: a wrap
needs 2^63 connections or bytes.
-/

namespace Qdb

/-! ## Run identifier -/

/-- The constant `charsets` of `getRandomHex`, as bytes. -/
def charsets : List Nat := "0123456789abcdef".toList.map Char.toNat

/-- The call `rand.Read(buf)` with an injected random source: the source
delivers the bytes `src`, which overwrite the front of `buf`; a short or failed
read (`src` shorter than `buf`, possibly empty) leaves the rest of `buf` as it
was. The length of `buf` never changes. -/
def randRead : List Nat → List Nat → List Nat
  | r :: rs, _ :: bs => (r % 256) :: randRead rs bs
  | _, bs => bs

/-- The loop `for i := range buf { buf[i] = charsets[buf[i]&0x0F] }`, run on the
buffer content `buf`. Indexing `charsets` out of range would be a run-time panic
in Go; the fallback value `0` stands for it and is never reached, as the index
is below sixteen. -/
def hexLoop (buf : List Nat) : List Nat :=
  buf.map (fun b => charsets.getD (b &&& 0x0F) 0)

/-- The function `getRandomHex(buf)`: fill `buf` from the random source (whose
error is ignored), then replace every byte by a character of `charsets`. -/
def getRandomHex (src buf : List Nat) : List Nat :=
  hexLoop (randRead src buf)

/-- The run identifier of `Serve`: `h.runID = make([]byte, 40)` followed by
`getRandomHex(h.runID)`. -/
def serveRunID (src : List Nat) : List Nat :=
  getRandomHex src (List.replicate 40 0)

/-- A byte is one of the characters `0`..`9` or `a`..`f`. -/
def isLowerHex (c : Nat) : Bool :=
  (48 ≤ c && c ≤ 57) || (97 ≤ c && c ≤ 102)

/-! ## The argument check `session` -/

/-- A value of type `Session` (an implementation of the interface), identified
by a number. -/
structure SessionRef where
  id : Nat
  deriving DecidableEq, Repr

/-- A value of type `interface{}` as `session` sees it: the nil interface, a
value whose dynamic type implements `Session` (a nil pointer of such a type
included: the interface that holds it is not nil), or a value of another
type. -/
inductive Iface where
  | nil
  | sess (s : SessionRef)
  | other (tag : Nat)
  deriving DecidableEq, Repr

/-- The type assertion `s, _ := arg0.(Session)`: the session when `arg0` holds
one, the nil `Session` (here `none`) otherwise. -/
def assertSession : Iface → Option SessionRef
  | .sess s => some s
  | _ => none

/-- The message of `errors.Errorf("args[%d] is nil", i)`. -/
def argNilMsg (i : Nat) : String :=
  "args[" ++ toString i ++ "] is nil"

/-- The loop `for i, v := range args` of `session`, from index `i` on: the
first argument of length zero ends it with an error. -/
def checkArgs : Nat → List (List Nat) → Option String
  | _, [] => none
  | i, v :: rest => if v.length = 0 then some (argNilMsg i) else checkArgs (i + 1) rest

/-- The function `session(arg0, args)`: `Except.error msg` is the result
`(nil, err)`, `Except.ok s` is `(s, nil)`. -/
def session (arg0 : Iface) (args : List (List Nat)) : Except String SessionRef :=
  match assertSession arg0 with
  | none => .error "invalid session"
  | some s =>
    match checkArgs 0 args with
    | some msg => .error msg
    | none => .ok s

/-! ## Replication backlog and sync decision -/

/-- The bytes of a string literal. -/
def bytesOf (s : String) : List Nat := s.toList.map Char.toNat

/-- Modelled from the spec: the replication state of `Handler.repl`
(`backlogBuf`, `masterOffset`, `backlogOffset`); the code that appends to the
backlog and reads from it is in source files of the repository that are not
part of this development. `buf` holds the retained bytes, oldest first, so the
byte at position `i` of `buf` has the global offset `backlogOffset + i`. -/
structure Backlog where
  capacity : Nat
  buf : List Nat
  masterOffset : Int
  backlogOffset : Int
  deriving DecidableEq, Repr

/-- Modelled from the spec: the backlog at server start, empty and with both
offsets at zero (the scenario of the spec appends its first bytes at the offsets
0 to 8); the initialisation code is not part of this development. -/
def Backlog.init (capacity : Nat) : Backlog :=
  { capacity := capacity, buf := [], masterOffset := 0, backlogOffset := 0 }

/-- Modelled from the spec: `append(bytes)` of the backlog ring buffer, whose
code is not part of this development. It advances `masterOffset` by
`len(bytes)`; if the retained bytes would exceed the capacity it evicts from the
front and advances `backlogOffset` by the excess. It always succeeds. -/
def Backlog.append (s : Backlog) (bytes : List Nat) : Backlog :=
  let all := s.buf ++ bytes
  if all.length > s.capacity then
    let excess := all.length - s.capacity
    { s with
      buf := all.drop excess
      masterOffset := s.masterOffset + bytes.length
      backlogOffset := s.backlogOffset + excess }
  else
    { s with buf := all, masterOffset := s.masterOffset + bytes.length }

/-- Modelled from the spec: `read(fromOffset, toOffset)` of the backlog ring
buffer, whose code is not part of this development. It returns the bytes in
`[fromOffset, toOffset)` when `backlogOffset <= fromOffset <= toOffset <=
masterOffset`; otherwise it signals a `BacklogMiss` (`none`). -/
def Backlog.read (s : Backlog) (fromOffset toOffset : Int) : Option (List Nat) :=
  if s.backlogOffset ≤ fromOffset ∧ fromOffset ≤ toOffset ∧ toOffset ≤ s.masterOffset then
    some ((s.buf.drop (fromOffset - s.backlogOffset).toNat).take (toOffset - fromOffset).toNat)
  else
    none

/-- The backlog after a sequence of appends to the initial state. -/
def Backlog.run (capacity : Nat) (appends : List (List Nat)) : Backlog :=
  appends.foldl Backlog.append (Backlog.init capacity)

/-- The last `n` bytes of a stream (all of it when it is shorter). -/
def lastBytes (n : Nat) (stream : List Nat) : List Nat :=
  stream.drop (stream.length - n)

/-- The state `s` retains the tail of `stream`: its buffer is the last
`capacity` bytes, `masterOffset` is the length of the stream and
`backlogOffset` the offset of the first retained byte. -/
def Backlog.Tracks (s : Backlog) (stream : List Nat) : Prop :=
  s.buf = lastBytes s.capacity stream ∧
  s.masterOffset = (stream.length : Int) ∧
  s.backlogOffset = ((stream.length - s.capacity : Nat) : Int)

/-- The counters `syncFull`, `syncPartialOK` and `syncPartialErr` of
`Handler.counters`. -/
structure SyncCounters where
  syncFull : Int
  syncPartialOK : Int
  syncPartialErr : Int
  deriving DecidableEq, Repr

/-- The outcome of a sync request: a full resync, or a partial resync that
delivers the catch-up bytes. -/
inductive SyncDecision where
  | full
  | partialSync (bytes : List Nat)
  deriving DecidableEq, Repr

/-- Modelled from the spec: the operation `requestSync(replicaRunID,
requestedOffset)`, whose code is not part of this development. A run identifier
different from the server's, an absent offset, or an offset below
`backlogOffset` or above `masterOffset` decides a full resync (`syncFull` is
incremented); otherwise the bytes `[requestedOffset, masterOffset)` are read
from the backlog and a partial resync delivers them (`syncPartialOK` is
incremented); a `BacklogMiss` of that read degrades to a full resync and
increments `syncPartialErr` before `syncFull`. -/
def requestSync (runID : List Nat) (s : Backlog) (c : SyncCounters)
    (replicaRunID : List Nat) (requestedOffset : Option Int) : SyncDecision × SyncCounters :=
  match requestedOffset with
  | none => (.full, { c with syncFull := c.syncFull + 1 })
  | some off =>
    if replicaRunID ≠ runID ∨ off < s.backlogOffset ∨ off > s.masterOffset then
      (.full, { c with syncFull := c.syncFull + 1 })
    else
      match s.read off s.masterOffset with
      | some bytes => (.partialSync bytes, { c with syncPartialOK := c.syncPartialOK + 1 })
      | none =>
        (.full, { c with syncPartialErr := c.syncPartialErr + 1, syncFull := c.syncFull + 1 })

/-! ## `Serve`: the main thread and its connection workers -/

/-- Error values: `io.EOF`, any other error (told apart by a number), and the
result of `errors.Trace` on an error. -/
inductive Err where
  | eof
  | code (n : Nat)
  | trace (e : Err)
  deriving DecidableEq, Repr

/-- The error underneath the traces added by `errors.Trace`. -/
def Err.cause : Err → Err
  | .trace e => e.cause
  | e => e

/-- The library call `errors.Equal(err1, err2)`: equality of the causes. -/
def errorsEqual (a b : Err) : Bool :=
  decide (a.cause = b.cause)

/-- The deferred calls of `Serve`: `close(h.signal)`, `l.Close()` and
`h.closeReplication()`. -/
inductive Deferred where
  | closeSignal
  | closeListener
  | closeReplication
  deriving DecidableEq, Repr

/-- Where the main thread of `Serve` stands: before `net.Listen`, before
`h.initReplication`, before `handler.NewHandlerTable`, in the accept loop, after
a `return` statement while the deferred calls run, or returned to the caller. -/
inductive MainPC where
  | atListen
  | atInitReplication
  | atNewHandlerTable
  | atAccept
  | unwinding (ret : Err)
  | returned (ret : Err)
  deriving DecidableEq, Repr

/-- The deferred calls of a connection worker: `h.counters.clients.Sub(1)` and
`c.Close()`. -/
inductive WDeferred where
  | subClients
  | closeConn
  deriving DecidableEq, Repr

/-- Where a connection worker stands: the goroutine is spawned and has not run
yet, it is inside `c.serve(h)`, or `c.serve` has returned (its outcome is
logged) and the deferred calls run. -/
inductive WorkerPC where
  | spawned
  | serving
  | exiting
  deriving DecidableEq, Repr

/-- A connection worker (the goroutine of the accept loop): its position, its
stack of deferred calls (most recent first), and how many times it has executed
`clients.Add(1)`, `clients.Sub(1)` and `c.Close()` so far. -/
structure Worker where
  pc : WorkerPC
  defers : List WDeferred
  adds : Nat
  subs : Nat
  closes : Nat
  deriving DecidableEq, Repr

/-- What has happened so far, in order: the steps of the main thread, its
executed deferred calls, and the steps and log lines of the workers. -/
inductive Event where
  | listened
  | replInitialised
  | daemonSpawned
  | accepted (i : Nat)
  | returning (e : Err)
  | closeReplication
  | closeListener
  | closeSignal
  | returned (e : Err)
  | logNewConnection (i : Nat)
  | logConnectionExit (i : Nat)
  | logConnectionLostEOF (i : Nat)
  | logConnectionLost (i : Nat) (e : Err)
  | connClosed (i : Nat)
  | clientsSub (i : Nat)
  deriving DecidableEq, Repr

/-- The state of a run of `Serve`: the main thread and its stack of deferred
calls (most recent first), the counters `clientsAccepted` and `clients`, the
workers in the order of their connections, the connections registered in
`h.repl.slaves`, how many times `h.signal` has been closed, and the events. -/
structure State where
  main : MainPC
  defers : List Deferred
  clientsAccepted : Int
  clients : Int
  workers : List Worker
  slaves : List Nat
  signalCloses : Nat
  trace : List Event
  deriving DecidableEq, Repr

/-- The steps of a run: the calls of the main thread with the result the
environment gives them (`none` is success), the execution of the main thread's
next deferred call (or its return when none is left), and the steps of worker
`i`: its start, the registration of its connection as a slave while it serves,
the return of `c.serve(h)` with its outcome, and its next deferred call. -/
inductive Action where
  | listen (r : Option Err)
  | initReplication (r : Option Err)
  | newHandlerTable (r : Option Err)
  | accept (r : Option Err)
  | mainUnwind
  | workerStart (i : Nat)
  | workerRegister (i : Nat)
  | workerServeReturn (i : Nat) (r : Option Err)
  | workerUnwind (i : Nat)
  deriving DecidableEq, Repr

/-- The state of `Serve` when it reaches `net.Listen`: the handler is built,
`close(h.signal)` is deferred and the run identifier is generated. -/
def State.init : State :=
  { main := .atListen, defers := [.closeSignal], clientsAccepted := 0, clients := 0,
    workers := [], slaves := [], signalCloses := 0, trace := [] }

/-- A `return` statement of `Serve` with the value `e`: the deferred calls run
next. -/
def mainReturn (s : State) (e : Err) : State :=
  { s with main := .unwinding e, trace := s.trace ++ [.returning e] }

/-- Modelled from the spec: `h.closeReplication()` is not part of this
development; the replication state is torn down with the replica set cleared.
The other two deferred calls of `Serve` close the listener and close the
channel `h.signal`. -/
def runDeferred (s : State) : Deferred → State
  | .closeSignal =>
    { s with signalCloses := s.signalCloses + 1, trace := s.trace ++ [.closeSignal] }
  | .closeListener => { s with trace := s.trace ++ [.closeListener] }
  | .closeReplication => { s with slaves := [], trace := s.trace ++ [.closeReplication] }

/-- The main thread after a successful `net.Listen`: `l.Close()` is deferred. -/
def afterListen (s : State) : State :=
  { s with main := .atInitReplication, defers := .closeListener :: s.defers,
           trace := s.trace ++ [.listened] }

/-- The main thread after a successful `h.initReplication(bl)`:
`h.closeReplication()` is deferred. -/
def afterInitReplication (s : State) : State :=
  { s with main := .atNewHandlerTable, defers := .closeReplication :: s.defers,
           trace := s.trace ++ [.replInitialised] }

/-- The main thread after a successful `handler.NewHandlerTable(h)`: the
goroutine `h.daemonSyncMaster()` is spawned and the accept loop begins. -/
def afterNewHandlerTable (s : State) : State :=
  { s with main := .atAccept, trace := s.trace ++ [.daemonSpawned] }

/-- A worker whose goroutine has been spawned and has not run yet. -/
def Worker.fresh : Worker :=
  { pc := .spawned, defers := [], adds := 0, subs := 0, closes := 0 }

/-- The main thread after a successful `l.Accept()`: `clientsAccepted.Add(1)`
and the goroutine for the connection is spawned; the loop continues. -/
def afterAccept (s : State) : State :=
  { s with
    clientsAccepted := s.clientsAccepted + 1
    workers := s.workers ++ [Worker.fresh]
    trace := s.trace ++ [.accepted s.workers.length] }

/-- The main thread returns to the caller: no deferred call is left. -/
def afterUnwind (s : State) (e : Err) : State :=
  { s with main := .returned e, trace := s.trace ++ [.returned e] }

/-- The log line of a worker for the outcome of `c.serve(h)`. -/
def workerLog (i : Nat) : Option Err → Event
  | none => .logConnectionExit i
  | some e => if errorsEqual e .eof then .logConnectionLostEOF i else .logConnectionLost i e

/-- The start of worker `i`: `h.counters.clients.Add(1)`, then
`defer h.counters.clients.Sub(1)`, `newConn`, `defer c.Close()` and the log
line; the worker enters `c.serve(h)`. -/
def afterWorkerStart (s : State) (i : Nat) (w : Worker) : State :=
  { s with
    clients := s.clients + 1
    workers := s.workers.set i
      { w with pc := .serving, adds := w.adds + 1,
               defers := .closeConn :: .subClients :: w.defers }
    trace := s.trace ++ [.logNewConnection i] }

/-- Modelled from the spec: `c.serve(h)` is not part of this development; a
connection that issues a sync request is registered in `h.repl.slaves` while it
is served. -/
def afterWorkerRegister (s : State) (i : Nat) : State :=
  { s with slaves := if i ∈ s.slaves then s.slaves else i :: s.slaves }

/-- The return of `c.serve(h)` in worker `i` with the outcome `r`: the outcome
is logged and the function of the goroutine ends, so its deferred calls run. -/
def afterServeReturn (s : State) (i : Nat) (w : Worker) (r : Option Err) : State :=
  { s with
    workers := s.workers.set i { w with pc := .exiting }
    trace := s.trace ++ [workerLog i r] }

/-- Modelled from the spec: `c.Close()` is not part of this development; closing
a connection deregisters it from the slave set if present. The other deferred
call of a worker is `h.counters.clients.Sub(1)`. -/
def runWDeferred (s : State) (i : Nat) (w : Worker) : WDeferred → State
  | .closeConn =>
    { s with
      workers := s.workers.set i { w with closes := w.closes + 1 }
      slaves := s.slaves.filter (fun j => j ≠ i)
      trace := s.trace ++ [.connClosed i] }
  | .subClients =>
    { s with
      workers := s.workers.set i { w with subs := w.subs + 1 }
      clients := s.clients - 1
      trace := s.trace ++ [.clientsSub i] }

/-- One step of a run of `Serve`; `none` when the step cannot be taken in the
state. A failed `net.Listen`, `h.initReplication` or `l.Accept` returns
`errors.Trace(err)`, a failed `handler.NewHandlerTable` returns `err`. -/
def step (s : State) : Action → Option State
  | .listen r =>
    match s.main, r with
    | .atListen, none => some (afterListen s)
    | .atListen, some e => some (mainReturn s (.trace e))
    | _, _ => none
  | .initReplication r =>
    match s.main, r with
    | .atInitReplication, none => some (afterInitReplication s)
    | .atInitReplication, some e => some (mainReturn s (.trace e))
    | _, _ => none
  | .newHandlerTable r =>
    match s.main, r with
    | .atNewHandlerTable, none => some (afterNewHandlerTable s)
    | .atNewHandlerTable, some e => some (mainReturn s e)
    | _, _ => none
  | .accept r =>
    match s.main, r with
    | .atAccept, none => some (afterAccept s)
    | .atAccept, some e => some (mainReturn s (.trace e))
    | _, _ => none
  | .mainUnwind =>
    match s.main, s.defers with
    | .unwinding _, d :: ds => some (runDeferred { s with defers := ds } d)
    | .unwinding e, [] => some (afterUnwind s e)
    | _, _ => none
  | .workerStart i =>
    match s.workers[i]? with
    | some w => if w.pc = .spawned then some (afterWorkerStart s i w) else none
    | none => none
  | .workerRegister i =>
    match s.workers[i]? with
    | some w => if w.pc = .serving then some (afterWorkerRegister s i) else none
    | none => none
  | .workerServeReturn i r =>
    match s.workers[i]? with
    | some w => if w.pc = .serving then some (afterServeReturn s i w r) else none
    | none => none
  | .workerUnwind i =>
    match s.workers[i]? with
    | some w =>
      match w.pc, w.defers with
      | .exiting, d :: ds => some (runWDeferred s i { w with defers := ds } d)
      | _, _ => none
    | none => none

/-- Run a schedule of steps from a state; `none` when one of them cannot be
taken. -/
def run (s : State) : List Action → Option State
  | [] => some s
  | a :: rest =>
    match step s a with
    | some s' => run s' rest
    | none => none

/-- The schedule step is a successful `Accept`. -/
def isAcceptOk : Action → Bool
  | .accept none => true
  | _ => false

/-- The schedule step is a failed `Accept`. -/
def isAcceptFail : Action → Bool
  | .accept (some _) => true
  | _ => false

/-- The schedule step is an `Accept` call. -/
def isAccept : Action → Bool
  | .accept _ => true
  | _ => false

/-- The main thread has not executed a `return` statement yet. -/
def MainPC.running : MainPC → Bool
  | .unwinding _ => false
  | .returned _ => false
  | _ => true

/-- The value the main thread is returning or has returned, once a `return`
statement is executed. -/
def MainPC.exitWith : MainPC → Option Err
  | .unwinding e => some e
  | .returned e => some e
  | _ => none

/-- The event a deferred call of `Serve` leaves in the trace. -/
def Deferred.event : Deferred → Event
  | .closeSignal => .closeSignal
  | .closeListener => .closeListener
  | .closeReplication => .closeReplication

/-- The event is one of the teardown calls of `Serve`. -/
def isTeardown : Event → Bool
  | .closeReplication => true
  | .closeListener => true
  | .closeSignal => true
  | _ => false

/-- The event is neither a teardown call nor one of the two startup events that
add a deferred call. -/
def Event.neutral (ev : Event) : Bool :=
  !isTeardown ev && decide (ev ≠ .listened) && decide (ev ≠ .replInitialised)

/-- The teardown calls `Serve` owes for what its startup has done, in the order
of their execution: `closeReplication` when replication was initialised, the
close of the listener when it was opened, and the close of `h.signal`. -/
def expectedTeardown (trace : List Event) : List Event :=
  (if Event.replInitialised ∈ trace then [Event.closeReplication] else []) ++
  (if Event.listened ∈ trace then [Event.closeListener] else []) ++ [Event.closeSignal]

/-- The invariant of the main thread: the teardown calls already executed,
followed by the deferred calls still on the stack, are the calls `Serve` owes;
the startup events match the position of the main thread; `h.signal` is closed
or its close is deferred, not both; nothing is torn down before a `return`; and
no deferred call is left when `Serve` has returned. -/
structure MainInv (s : State) : Prop where
  owed : s.trace.filter isTeardown ++ s.defers.map Deferred.event = expectedTeardown s.trace
  atListen : s.main = .atListen → Event.listened ∉ s.trace ∧ Event.replInitialised ∉ s.trace
  atInit : s.main = .atInitReplication →
    Event.listened ∈ s.trace ∧ Event.replInitialised ∉ s.trace
  signal : s.signalCloses + s.defers.count .closeSignal = 1
  running : s.main.running = true → s.signalCloses = 0 ∧ s.trace.filter isTeardown = []
  returned : ∀ e, s.main = .returned e → s.defers = []

/-- A worker inside `c.serve(h)`: `clients` is incremented and both calls are
deferred, `c.Close()` last. -/
def Worker.serving : Worker :=
  { pc := .serving, defers := [.closeConn, .subClients], adds := 1, subs := 0, closes := 0 }

/-- A worker whose `c.serve(h)` has returned. -/
def Worker.served : Worker :=
  { pc := .exiting, defers := [.closeConn, .subClients], adds := 1, subs := 0, closes := 0 }

/-- A worker that has closed its connection. -/
def Worker.closed : Worker :=
  { pc := .exiting, defers := [.subClients], adds := 1, subs := 0, closes := 1 }

/-- A worker that has decremented `clients`: its goroutine has ended. -/
def Worker.done : Worker :=
  { pc := .exiting, defers := [], adds := 1, subs := 1, closes := 1 }

/-- The states a worker goes through, in order. -/
def Worker.lifecycle : List Worker :=
  [Worker.fresh, Worker.serving, Worker.served, Worker.closed, Worker.done]

/-- The increments of `clients` minus its decrements, over all workers. -/
def netClients : List Worker → Int
  | [] => 0
  | w :: ws => ((w.adds : Int) - (w.subs : Int)) + netClients ws

/-- The invariant of the workers: every worker is in a state of the lifecycle,
`clients` is the sum of the increments and decrements the workers have executed,
`clientsAccepted` is the number of workers, and a connection registered in
`h.repl.slaves` has not been closed. -/
structure WorkersInv (s : State) : Prop where
  lifecycle : ∀ w ∈ s.workers, w ∈ Worker.lifecycle
  clients : s.clients = netClients s.workers
  accepted : s.clientsAccepted = (s.workers.length : Int)
  slaves : ∀ i w, s.workers[i]? = some w → i ∈ s.slaves → w.closes = 0

/-- The goroutine of the worker has started. -/
def Worker.started (w : Worker) : Bool :=
  decide (w.pc ≠ .spawned)

/-- The goroutine of the worker has ended: `c.serve` has returned and no
deferred call is left. -/
def Worker.ended (w : Worker) : Bool :=
  decide (w.pc = .exiting) && w.defers.isEmpty

/-- The worker has started and not yet ended. -/
def Worker.active (w : Worker) : Bool :=
  w.started && !w.ended

/-! ## Theorems: run identifier -/

theorem randRead_length (src buf : List Nat) : (randRead src buf).length = buf.length := by
  induction src generalizing buf with
  | nil => cases buf <;> simp [randRead]
  | cons r rs ih =>
    cases buf with
    | nil => simp [randRead]
    | cons b bs => simp [randRead, ih]

theorem and_fifteen_lt (b : Nat) : b &&& 0x0F < 16 :=
  Nat.lt_succ_of_le Nat.and_le_right

theorem charsets_lowerHex : ∀ k, k < 16 → isLowerHex (charsets.getD k 0) = true := by
  decide

theorem charsets_get : ∀ k, k < 16 →
    charsets[k]? = some (charsets.getD k 0) ∧
      charsets.getD k 0 = if k < 10 then 48 + k else 87 + k := by
  decide

theorem getRandomHex_length (src buf : List Nat) :
    (getRandomHex src buf).length = buf.length := by
  simp [getRandomHex, hexLoop, randRead_length]

theorem getRandomHex_lowerHex (src buf : List Nat) :
    ∀ c ∈ getRandomHex src buf, isLowerHex c = true := by
  intro c hc
  simp only [getRandomHex, hexLoop, List.mem_map] at hc
  obtain ⟨b, _, rfl⟩ := hc
  exact charsets_lowerHex _ (and_fifteen_lt b)

/-- C1: whatever the random source leaves in the buffer (a full, short or
failed read), `getRandomHex` returns a buffer of the length of its input whose
bytes are all characters `0`..`9` or `a`..`f`; the run identifier of `Serve`
therefore has length 40 and consists of lowercase hex digits only. -/
theorem runID_is_lower_hex (src : List Nat) :
    (∀ buf : List Nat, (getRandomHex src buf).length = buf.length ∧
      ∀ c ∈ getRandomHex src buf, isLowerHex c = true) ∧
    (serveRunID src).length = 40 ∧ ∀ c ∈ serveRunID src, isLowerHex c = true := by
  refine ⟨fun buf => ⟨getRandomHex_length src buf, getRandomHex_lowerHex src buf⟩, ?_, ?_⟩
  · simp [serveRunID, getRandomHex_length]
  · exact getRandomHex_lowerHex src _

/-- C7: with `r` the bytes the random source has left in the buffer, the result
of `getRandomHex` has the length of `r`, its `i`-th byte is the character of
`"0123456789abcdef"` at index `r[i] & 0x0F` (the digit `0`..`9` below ten, the
letter `a`..`f` from ten on), and two runs whose buffers hold the same random
bytes return the same identifier. -/
theorem getRandomHex_deterministic_hex (src buf : List Nat) :
    (getRandomHex src buf).length = (randRead src buf).length ∧
    (∀ i b : Nat, (randRead src buf)[i]? = some b →
      ∃ c, (getRandomHex src buf)[i]? = some c ∧ charsets[b &&& 0x0F]? = some c ∧
        c = if b &&& 0x0F < 10 then 48 + (b &&& 0x0F) else 87 + (b &&& 0x0F)) ∧
    (∀ src2 buf2, randRead src2 buf2 = randRead src buf →
      getRandomHex src2 buf2 = getRandomHex src buf) := by
  refine ⟨by simp [getRandomHex, hexLoop], ?_, ?_⟩
  · intro i b hb
    refine ⟨charsets.getD (b &&& 0x0F) 0, ?_, ?_, ?_⟩
    · simp [getRandomHex, hexLoop, List.getElem?_map, hb]
    · exact (charsets_get _ (and_fifteen_lt b)).1
    · exact (charsets_get _ (and_fifteen_lt b)).2
  · intro src2 buf2 h
    simp [getRandomHex, h]

/-- Witness for C7: the random bytes `0x3C, 0xA0` and a failed read of the
third byte give the identifier `"c00"`. -/
theorem getRandomHex_deterministic_hex_witness :
    getRandomHex [0x3C, 0xA0] [0, 0, 0] = [99, 48, 48] ∧
    (∃ c, (getRandomHex [0x3C, 0xA0] [0, 0, 0])[0]? = some c ∧
      charsets[0x3C &&& 0x0F]? = some c ∧
      c = if 0x3C &&& 0x0F < 10 then 48 + (0x3C &&& 0x0F) else 87 + (0x3C &&& 0x0F)) :=
  ⟨by decide, (getRandomHex_deterministic_hex [0x3C, 0xA0] [0, 0, 0]).2.1 0 0x3C (by decide)⟩

/-! ## Theorems: `session` -/

theorem checkArgs_eq_none (k : Nat) (args : List (List Nat)) :
    checkArgs k args = none ↔ ∀ v ∈ args, v.length ≠ 0 := by
  induction args generalizing k with
  | nil => simp [checkArgs]
  | cons v rest ih =>
    by_cases hv : v.length = 0
    · simp only [checkArgs, hv, if_true]
      constructor
      · intro h
        cases h
      · intro h
        exact absurd hv (h v (List.mem_cons_self v rest))
    · simp only [checkArgs, hv, if_false, ih, List.mem_cons]
      constructor
      · rintro h w (rfl | hw)
        · exact hv
        · exact h w hw
      · intro h w hw
        exact h w (Or.inr hw)

theorem checkArgs_first (k : Nat) (args : List (List Nat)) (i : Nat) (v : List Nat)
    (hi : args[i]? = some v) (hv : v.length = 0)
    (hlt : ∀ j w, j < i → args[j]? = some w → w.length ≠ 0) :
    checkArgs k args = some (argNilMsg (k + i)) := by
  induction args generalizing k i with
  | nil => simp at hi
  | cons a rest ih =>
    cases i with
    | zero =>
      simp only [List.getElem?_cons_zero, Option.some.injEq] at hi
      subst hi
      simp [checkArgs, hv]
    | succ n =>
      have ha : a.length ≠ 0 := hlt 0 a (Nat.succ_pos n) (by simp)
      have hrest := ih (k + 1) n (by simpa using hi)
        (fun j w hj hw => hlt (j + 1) w (Nat.succ_lt_succ hj) (by simpa using hw))
      simp only [checkArgs, ha, if_false, hrest]
      congr 2
      omega

/-- C2: `session` returns an error exactly when `arg0` holds no `Session` or
some argument has length zero; in every other case, the empty argument list
included, it returns the session held by `arg0` and no error. -/
theorem session_rejects_exactly (arg0 : Iface) (args : List (List Nat)) :
    ((∃ msg, session arg0 args = .error msg) ↔
      ((∀ s, arg0 ≠ .sess s) ∨ ∃ v ∈ args, v.length = 0)) ∧
    (∀ s, arg0 = .sess s → (∀ v ∈ args, v.length ≠ 0) → session arg0 args = .ok s) ∧
    (∀ s, session (.sess s) [] = .ok s) := by
  refine ⟨?_, ?_, ?_⟩
  · cases arg0 with
    | nil => simp [session, assertSession]
    | other t => simp [session, assertSession]
    | sess s =>
      cases hc : checkArgs 0 args with
      | none =>
        have hall := (checkArgs_eq_none 0 args).1 hc
        simp only [session, assertSession, hc]
        constructor
        · rintro ⟨msg, hmsg⟩
          cases hmsg
        · rintro (h | ⟨v, hv, hlen⟩)
          · exact absurd rfl (h s)
          · exact absurd hlen (hall v hv)
      | some m =>
        have hex : ∃ v ∈ args, v.length = 0 := by
          by_contra hno
          have hnone := (checkArgs_eq_none 0 args).2
            (fun v hv hlen => hno ⟨v, hv, hlen⟩)
          rw [hnone] at hc
          cases hc
        simp only [session, assertSession, hc]
        exact ⟨fun _ => Or.inr hex, fun _ => ⟨m, rfl⟩⟩
  · intro s hs hall
    subst hs
    simp [session, assertSession, (checkArgs_eq_none 0 args).2 hall]
  · intro s
    rfl

/-- Witness for C2: a session with the arguments `"GET"`, `"k"` is accepted and
returned. -/
theorem session_rejects_exactly_witness :
    session (.sess ⟨7⟩) [[71, 69, 84], [107]] = .ok ⟨7⟩ :=
  (session_rejects_exactly (.sess ⟨7⟩) [[71, 69, 84], [107]]).2.1 ⟨7⟩ rfl (by decide)

/-- C10: `session` checks the session first and the arguments in order: without
a valid session the error is `invalid session` whatever the arguments are; with
one, and `i` the smallest index of an argument of length zero, the error is
`args[i] is nil`. -/
theorem session_first_offender (arg0 : Iface) (args : List (List Nat)) :
    (assertSession arg0 = none → session arg0 args = .error "invalid session") ∧
    (∀ (s : SessionRef) (i : Nat) (v : List Nat), arg0 = .sess s →
      args[i]? = some v → v.length = 0 →
      (∀ j w, j < i → args[j]? = some w → w.length ≠ 0) →
      session arg0 args = .error ("args[" ++ toString i ++ "] is nil")) := by
  refine ⟨?_, ?_⟩
  · intro h
    simp [session, h]
  · intro s i v hs hi hv hlt
    subst hs
    have h := checkArgs_first 0 args i v hi hv hlt
    simp only [Nat.zero_add] at h
    simp [session, assertSession, h, argNilMsg]

/-- Witness for C10: with the arguments `"a"`, `""`, `"b"`, `""` the error names
index 1, and a missing session is reported even though arguments are empty. -/
theorem session_first_offender_witness :
    session (.sess ⟨7⟩) [[97], [], [98], []] = .error "args[1] is nil" ∧
    session .nil [[97], [], [98], []] = .error "invalid session" :=
  ⟨(session_first_offender (.sess ⟨7⟩) [[97], [], [98], []]).2 ⟨7⟩ 1 [] rfl (by decide)
      (by decide) (by
        intro j w hj hw
        have hj0 : j = 0 := by omega
        subst hj0
        simp only [List.getElem?_cons_zero, Option.some.injEq] at hw
        subst hw
        decide),
    (session_first_offender .nil [[97], [], [98], []]).1 rfl⟩

/-! ## Theorems: backlog and sync decision -/

theorem Backlog.append_capacity (s : Backlog) (bytes : List Nat) :
    (s.append bytes).capacity = s.capacity := by
  unfold Backlog.append
  dsimp only
  split <;> rfl

theorem Backlog.append_masterOffset (s : Backlog) (bytes : List Nat) :
    (s.append bytes).masterOffset = s.masterOffset + bytes.length := by
  unfold Backlog.append
  dsimp only
  split <;> rfl

theorem Backlog.tracks_init (capacity : Nat) : (Backlog.init capacity).Tracks [] := by
  simp [Backlog.Tracks, Backlog.init, lastBytes]

theorem Backlog.tracks_append (s : Backlog) (stream bytes : List Nat)
    (h : s.Tracks stream) : (s.append bytes).Tracks (stream ++ bytes) := by
  obtain ⟨hbuf, hmo, hbo⟩ := h
  have hk : stream.length - s.capacity ≤ stream.length := Nat.sub_le _ _
  have hall : s.buf ++ bytes = (stream ++ bytes).drop (stream.length - s.capacity) := by
    rw [hbuf, lastBytes, List.drop_append_of_le_length hk]
  have hlen : (s.buf ++ bytes).length =
      stream.length - (stream.length - s.capacity) + bytes.length := by
    rw [hbuf, lastBytes]
    simp
  refine ⟨?_, ?_, ?_⟩
  · rw [Backlog.append_capacity]
    unfold Backlog.append
    dsimp only
    split
    · next hgt =>
      dsimp only
      rw [hall, List.drop_drop, lastBytes]
      congr 1
      rw [← hall, hlen]
      simp only [List.length_append]
      rw [hlen] at hgt
      omega
    · next hle =>
      dsimp only
      rw [hall, lastBytes]
      congr 1
      rw [hlen] at hle
      simp only [List.length_append]
      omega
  · rw [Backlog.append_masterOffset, hmo]
    simp
  · rw [Backlog.append_capacity]
    unfold Backlog.append
    dsimp only
    split
    · next hgt =>
      dsimp only
      rw [hbo, hlen]
      rw [hlen] at hgt
      simp only [List.length_append]
      omega
    · next hle =>
      dsimp only
      rw [hbo]
      rw [hlen] at hle
      simp only [List.length_append]
      omega

theorem Backlog.tracks_foldl (appends : List (List Nat)) (s : Backlog) (stream : List Nat)
    (h : s.Tracks stream) :
    (appends.foldl Backlog.append s).Tracks (stream ++ appends.flatten) := by
  induction appends generalizing s stream with
  | nil => simpa using h
  | cons a rest ih =>
    have h2 := ih (s.append a) (stream ++ a) (Backlog.tracks_append s stream a h)
    simpa [List.append_assoc] using h2

theorem Backlog.foldl_capacity (appends : List (List Nat)) (s : Backlog) :
    (appends.foldl Backlog.append s).capacity = s.capacity := by
  induction appends generalizing s with
  | nil => rfl
  | cons a rest ih => simp [ih, Backlog.append_capacity]

theorem Backlog.tracks_run (capacity : Nat) (appends : List (List Nat)) :
    (Backlog.run capacity appends).Tracks appends.flatten ∧
      (Backlog.run capacity appends).capacity = capacity := by
  refine ⟨?_, ?_⟩
  · have h := Backlog.tracks_foldl appends (Backlog.init capacity) [] (Backlog.tracks_init capacity)
    simpa [Backlog.run] using h
  · simp [Backlog.run, Backlog.foldl_capacity, Backlog.init]

theorem Backlog.read_tail (s : Backlog) (stream : List Nat) (h : s.Tracks stream)
    (off : Int) (hlo : s.backlogOffset ≤ off) (hhi : off ≤ s.masterOffset) :
    s.read off s.masterOffset = some (stream.drop off.toNat) := by
  obtain ⟨hbuf, hmo, hbo⟩ := h
  have hcond : s.backlogOffset ≤ off ∧ off ≤ s.masterOffset ∧ s.masterOffset ≤ s.masterOffset :=
    ⟨hlo, hhi, le_refl _⟩
  have hoff : 0 ≤ off := le_trans (by rw [hbo]; exact Int.ofNat_nonneg _) hlo
  obtain ⟨n, rfl⟩ := Int.eq_ofNat_of_zero_le hoff
  simp only [Backlog.read, hcond, and_self, if_true, Option.some.injEq]
  rw [hbuf, lastBytes, List.drop_drop, hbo, hmo]
  have h1 : stream.length - s.capacity + ((n : Int) - ((stream.length - s.capacity : Nat) : Int)).toNat
      = n := by
    rw [hbo] at hlo
    omega
  have h2 : (n : Int).toNat = n := by simp
  rw [h1, h2]
  apply List.take_of_length_le
  rw [List.length_drop]
  rw [hmo] at hhi
  omega

/-- C8: after any sequence of appends to the initial backlog,
`masterOffset - backlogOffset` is at most the capacity, a further append never
decreases `masterOffset` (which is the number of bytes appended so far), and
`read(backlogOffset, masterOffset)` returns the last capacity-or-fewer bytes of
the appended stream, in order. -/
theorem backlog_invariant (capacity : Nat) (appends : List (List Nat)) :
    (Backlog.run capacity appends).masterOffset - (Backlog.run capacity appends).backlogOffset
      ≤ capacity ∧
    (Backlog.run capacity appends).masterOffset = (appends.flatten.length : Int) ∧
    (∀ bytes, (Backlog.run capacity appends).masterOffset
      ≤ ((Backlog.run capacity appends).append bytes).masterOffset) ∧
    (Backlog.run capacity appends).read (Backlog.run capacity appends).backlogOffset
        (Backlog.run capacity appends).masterOffset
      = some (lastBytes capacity appends.flatten) := by
  obtain ⟨htr, hcap⟩ := Backlog.tracks_run capacity appends
  have htr2 := htr
  obtain ⟨hbuf, hmo, hbo⟩ := htr2
  rw [hcap] at hbuf hbo
  refine ⟨?_, hmo, ?_, ?_⟩
  · rw [hmo, hbo]
    omega
  · intro bytes
    rw [Backlog.append_masterOffset]
    have : (0 : Int) ≤ (bytes.length : Int) := Int.ofNat_nonneg _
    omega
  · rw [Backlog.read_tail _ _ htr _ (le_refl _) (by rw [hmo, hbo]; omega), hbo, lastBytes]
    simp

/-- Scenario of C8: capacity 8, append `ABCDEFGH` then `IJ`: `backlogOffset` is
2, `masterOffset` is 10 and the backlog reads `CDEFGHIJ`. -/
theorem backlog_invariant_scenario :
    (Backlog.run 8 [bytesOf "ABCDEFGH", bytesOf "IJ"]).backlogOffset = 2 ∧
    (Backlog.run 8 [bytesOf "ABCDEFGH", bytesOf "IJ"]).masterOffset = 10 ∧
    (Backlog.run 8 [bytesOf "ABCDEFGH", bytesOf "IJ"]).read 2 10 = some (bytesOf "CDEFGHIJ") ∧
    (Backlog.run 8 [bytesOf "ABCDEFGH", bytesOf "IJ"]).read
        (Backlog.run 8 [bytesOf "ABCDEFGH", bytesOf "IJ"]).backlogOffset
        (Backlog.run 8 [bytesOf "ABCDEFGH", bytesOf "IJ"]).masterOffset
      = some (lastBytes 8 [bytesOf "ABCDEFGH", bytesOf "IJ"].flatten) :=
  ⟨by decide, by decide, by decide,
    (backlog_invariant 8 [bytesOf "ABCDEFGH", bytesOf "IJ"]).2.2.2⟩

/-- C9: on a backlog reached by appends, a sync request whose offset is below
`backlogOffset` or above `masterOffset`, or whose run identifier differs from
the server's, yields a full resync; a request with the server's run identifier
and an offset in `[backlogOffset, masterOffset]` yields a partial resync that
delivers the bytes of the stream from the requested offset up to
`masterOffset`, that is the stream without its first `requestedOffset` bytes. -/
theorem sync_decision (capacity : Nat) (appends : List (List Nat)) (runID replicaRunID : List Nat)
    (c : SyncCounters) (off : Int) :
    ((off < (Backlog.run capacity appends).backlogOffset ∨
        off > (Backlog.run capacity appends).masterOffset ∨ replicaRunID ≠ runID) →
      (requestSync runID (Backlog.run capacity appends) c replicaRunID (some off)).1 = .full) ∧
    (replicaRunID = runID → (Backlog.run capacity appends).backlogOffset ≤ off →
      off ≤ (Backlog.run capacity appends).masterOffset →
      (requestSync runID (Backlog.run capacity appends) c replicaRunID (some off)).1
          = .partialSync (appends.flatten.drop off.toNat) ∧
        ((appends.flatten.drop off.toNat).length : Int)
          = (Backlog.run capacity appends).masterOffset - off) := by
  obtain ⟨htr, _⟩ := Backlog.tracks_run capacity appends
  refine ⟨?_, ?_⟩
  · intro h
    have hcond : replicaRunID ≠ runID ∨ off < (Backlog.run capacity appends).backlogOffset ∨
        off > (Backlog.run capacity appends).masterOffset := by
      rcases h with h | h | h
      · exact Or.inr (Or.inl h)
      · exact Or.inr (Or.inr h)
      · exact Or.inl h
    simp only [requestSync, hcond, if_true]
  · intro hid hlo hhi
    have hcond : ¬ (replicaRunID ≠ runID ∨ off < (Backlog.run capacity appends).backlogOffset ∨
        off > (Backlog.run capacity appends).masterOffset) := by
      rintro (h | h | h)
      · exact h hid
      · exact absurd hlo (not_le.mpr h)
      · exact absurd hhi (not_le.mpr h)
    refine ⟨?_, ?_⟩
    · simp only [requestSync, hcond, if_false, Backlog.read_tail _ _ htr off hlo hhi]
    · have hoff : 0 ≤ off :=
        le_trans (by rw [htr.2.2]; exact Int.ofNat_nonneg _) hlo
      rw [List.length_drop, htr.2.1]
      rw [htr.2.1] at hhi
      omega

/-- Witness for C9: the capacity-8 backlog after appending `ABCDEFGH` and `IJ`:
offset 0 gives a full resync, offset 4 a partial resync delivering `EFGHIJ`. -/
theorem sync_decision_witness :
    (requestSync (bytesOf "r1") (Backlog.run 8 [bytesOf "ABCDEFGH", bytesOf "IJ"]) ⟨0, 0, 0⟩
        (bytesOf "r1") (some 0)).1 = .full ∧
    (requestSync (bytesOf "r1") (Backlog.run 8 [bytesOf "ABCDEFGH", bytesOf "IJ"]) ⟨0, 0, 0⟩
        (bytesOf "r1") (some 4)).1 = .partialSync (bytesOf "EFGHIJ") :=
  ⟨(sync_decision 8 [bytesOf "ABCDEFGH", bytesOf "IJ"] (bytesOf "r1") (bytesOf "r1") ⟨0, 0, 0⟩ 0).1
      (Or.inl (by decide)),
    ((sync_decision 8 [bytesOf "ABCDEFGH", bytesOf "IJ"] (bytesOf "r1") (bytesOf "r1") ⟨0, 0, 0⟩ 4).2
      rfl (by decide) (by decide)).1⟩

/-! ## Theorems: `Serve` -/

theorem run_append (s : State) (xs ys : List Action) :
    run s (xs ++ ys) = (run s xs).bind (fun s1 => run s1 ys) := by
  induction xs generalizing s with
  | nil => rfl
  | cons a rest ih =>
    simp only [List.cons_append, run]
    cases step s a with
    | none => rfl
    | some s1 => exact ih s1

theorem run_invariant (P : State → Prop)
    (hstep : ∀ s a s1, P s → step s a = some s1 → P s1)
    (s0 s : State) (sched : List Action) (h0 : P s0) (hrun : run s0 sched = some s) : P s := by
  induction sched generalizing s0 with
  | nil =>
    simp only [run, Option.some.injEq] at hrun
    exact hrun ▸ h0
  | cons a rest ih =>
    simp only [run] at hrun
    cases hs : step s0 a with
    | none => simp [hs] at hrun
    | some s1 =>
      rw [hs] at hrun
      exact ih s1 (hstep s0 a s1 h0 hs) hrun

theorem step_listen_inv {s s1 : State} {r : Option Err} (h : step s (.listen r) = some s1) :
    s.main = .atListen ∧
      ((r = none ∧ s1 = afterListen s) ∨ ∃ e, r = some e ∧ s1 = mainReturn s (.trace e)) := by
  simp only [step] at h
  split at h <;> simp_all

theorem step_initReplication_inv {s s1 : State} {r : Option Err}
    (h : step s (.initReplication r) = some s1) :
    s.main = .atInitReplication ∧
      ((r = none ∧ s1 = afterInitReplication s) ∨
        ∃ e, r = some e ∧ s1 = mainReturn s (.trace e)) := by
  simp only [step] at h
  split at h <;> simp_all

theorem step_newHandlerTable_inv {s s1 : State} {r : Option Err}
    (h : step s (.newHandlerTable r) = some s1) :
    s.main = .atNewHandlerTable ∧
      ((r = none ∧ s1 = afterNewHandlerTable s) ∨ ∃ e, r = some e ∧ s1 = mainReturn s e) := by
  simp only [step] at h
  split at h <;> simp_all

theorem step_accept_inv {s s1 : State} {r : Option Err} (h : step s (.accept r) = some s1) :
    s.main = .atAccept ∧
      ((r = none ∧ s1 = afterAccept s) ∨ ∃ e, r = some e ∧ s1 = mainReturn s (.trace e)) := by
  simp only [step] at h
  split at h <;> simp_all

theorem step_mainUnwind_inv {s s1 : State} (h : step s .mainUnwind = some s1) :
    ∃ e, s.main = .unwinding e ∧
      ((∃ d ds, s.defers = d :: ds ∧ s1 = runDeferred { s with defers := ds } d) ∨
        (s.defers = [] ∧ s1 = afterUnwind s e)) := by
  simp only [step] at h
  split at h
  · simp_all
    exact ⟨_, _, ⟨rfl, rfl⟩, h.symm⟩
  · simp_all
  · simp at h

theorem step_workerStart_inv {s s1 : State} {i : Nat} (h : step s (.workerStart i) = some s1) :
    ∃ w, s.workers[i]? = some w ∧ w.pc = .spawned ∧ s1 = afterWorkerStart s i w := by
  simp only [step] at h
  split at h
  · next w hw =>
    split at h <;> simp_all
  · simp at h

theorem step_workerRegister_inv {s s1 : State} {i : Nat}
    (h : step s (.workerRegister i) = some s1) :
    ∃ w, s.workers[i]? = some w ∧ w.pc = .serving ∧ s1 = afterWorkerRegister s i := by
  simp only [step] at h
  split at h
  · next w hw =>
    split at h <;> simp_all
  · simp at h

theorem step_workerServeReturn_inv {s s1 : State} {i : Nat} {r : Option Err}
    (h : step s (.workerServeReturn i r) = some s1) :
    ∃ w, s.workers[i]? = some w ∧ w.pc = .serving ∧ s1 = afterServeReturn s i w r := by
  simp only [step] at h
  split at h
  · next w hw =>
    split at h <;> simp_all
  · simp at h

theorem step_workerUnwind_inv {s s1 : State} {i : Nat} (h : step s (.workerUnwind i) = some s1) :
    ∃ w d ds, s.workers[i]? = some w ∧ w.pc = .exiting ∧ w.defers = d :: ds ∧
      s1 = runWDeferred s i { w with defers := ds } d := by
  simp only [step] at h
  split at h
  · next w hw =>
    split at h
    · simp_all
      exact ⟨_, _, ⟨rfl, rfl⟩, h.symm⟩
    · simp at h
  · simp at h

theorem runDeferred_main (s : State) (d : Deferred) : (runDeferred s d).main = s.main := by
  cases d <;> rfl

theorem runDeferred_defers (s : State) (d : Deferred) : (runDeferred s d).defers = s.defers := by
  cases d <;> rfl

theorem runWDeferred_main (s : State) (i : Nat) (w : Worker) (d : WDeferred) :
    (runWDeferred s i w d).main = s.main := by
  cases d <;> rfl

theorem runWDeferred_defers (s : State) (i : Nat) (w : Worker) (d : WDeferred) :
    (runWDeferred s i w d).defers = s.defers := by
  cases d <;> rfl

/-- A worker step leaves the main thread, its deferred calls, the counter
`clientsAccepted` and the closes of `h.signal` as they are. -/
theorem worker_step_frame {s s1 : State} {a : Action} (h : step s a = some s1)
    (ha : ∃ i, a = .workerStart i ∨ a = .workerRegister i ∨ (∃ r, a = .workerServeReturn i r) ∨
      a = .workerUnwind i) :
    s1.main = s.main ∧ s1.defers = s.defers ∧ s1.clientsAccepted = s.clientsAccepted ∧
      s1.signalCloses = s.signalCloses := by
  obtain ⟨i, rfl | rfl | ⟨r, rfl⟩ | rfl⟩ := ha
  · obtain ⟨w, _, _, rfl⟩ := step_workerStart_inv h
    exact ⟨rfl, rfl, rfl, rfl⟩
  · obtain ⟨w, _, _, rfl⟩ := step_workerRegister_inv h
    exact ⟨rfl, rfl, rfl, rfl⟩
  · obtain ⟨w, _, _, rfl⟩ := step_workerServeReturn_inv h
    exact ⟨rfl, rfl, rfl, rfl⟩
  · obtain ⟨w, d, ds, _, _, _, rfl⟩ := step_workerUnwind_inv h
    cases d <;> exact ⟨rfl, rfl, rfl, rfl⟩

theorem step_atAccept {s s1 : State} {a : Action} (hm : s.main = .atAccept)
    (h : step s a = some s1) :
    (isAcceptFail a = false → s1.main = .atAccept) ∧
    (∀ e, a = .accept (some e) → s1.main = .unwinding (.trace e)) := by
  cases a with
  | listen r => exact absurd (step_listen_inv h).1 (by simp [hm])
  | initReplication r => exact absurd (step_initReplication_inv h).1 (by simp [hm])
  | newHandlerTable r => exact absurd (step_newHandlerTable_inv h).1 (by simp [hm])
  | accept r =>
    obtain ⟨_, ⟨rfl, rfl⟩ | ⟨e, rfl, rfl⟩⟩ := step_accept_inv h
    · exact ⟨fun _ => hm, fun e he => by cases he⟩
    · refine ⟨fun hf => by simp [isAcceptFail] at hf, fun e2 he => ?_⟩
      cases he
      rfl
  | mainUnwind =>
    obtain ⟨e, he, _⟩ := step_mainUnwind_inv h
    rw [hm] at he
    cases he
  | workerStart i =>
    exact ⟨fun _ => (worker_step_frame h ⟨i, Or.inl rfl⟩).1.trans hm, fun e he => by cases he⟩
  | workerRegister i =>
    exact ⟨fun _ => (worker_step_frame h ⟨i, Or.inr (Or.inl rfl)⟩).1.trans hm,
      fun e he => by cases he⟩
  | workerServeReturn i r =>
    exact ⟨fun _ => (worker_step_frame h ⟨i, Or.inr (Or.inr (Or.inl ⟨r, rfl⟩))⟩).1.trans hm,
      fun e he => by cases he⟩
  | workerUnwind i =>
    exact ⟨fun _ => (worker_step_frame h ⟨i, Or.inr (Or.inr (Or.inr rfl))⟩).1.trans hm,
      fun e he => by cases he⟩

theorem step_exiting {s s1 : State} {a : Action} {e : Err} (hm : s.main.exitWith = some e)
    (h : step s a = some s1) :
    s1.main.exitWith = some e ∧ isAccept a = false := by
  cases a with
  | listen r =>
    have := (step_listen_inv h).1
    simp [this, MainPC.exitWith] at hm
  | initReplication r =>
    have := (step_initReplication_inv h).1
    simp [this, MainPC.exitWith] at hm
  | newHandlerTable r =>
    have := (step_newHandlerTable_inv h).1
    simp [this, MainPC.exitWith] at hm
  | accept r =>
    have := (step_accept_inv h).1
    simp [this, MainPC.exitWith] at hm
  | mainUnwind =>
    obtain ⟨e2, he2, ⟨d, ds, _, rfl⟩ | ⟨_, rfl⟩⟩ := step_mainUnwind_inv h
    · rw [runDeferred_main]
      exact ⟨hm, rfl⟩
    · rw [he2] at hm
      exact ⟨hm, rfl⟩
  | workerStart i =>
    exact ⟨by rw [(worker_step_frame h ⟨i, Or.inl rfl⟩).1]; exact hm, rfl⟩
  | workerRegister i =>
    exact ⟨by rw [(worker_step_frame h ⟨i, Or.inr (Or.inl rfl)⟩).1]; exact hm, rfl⟩
  | workerServeReturn i r =>
    exact ⟨by rw [(worker_step_frame h ⟨i, Or.inr (Or.inr (Or.inl ⟨r, rfl⟩))⟩).1]; exact hm, rfl⟩
  | workerUnwind i =>
    exact ⟨by rw [(worker_step_frame h ⟨i, Or.inr (Or.inr (Or.inr rfl))⟩).1]; exact hm, rfl⟩

theorem run_atAccept {s0 s : State} {sched : List Action} (hm : s0.main = .atAccept)
    (hrun : run s0 sched = some s) (hno : ∀ a ∈ sched, isAcceptFail a = false) :
    s.main = .atAccept := by
  induction sched generalizing s0 with
  | nil =>
    simp only [run, Option.some.injEq] at hrun
    exact hrun ▸ hm
  | cons a rest ih =>
    simp only [run] at hrun
    cases hs : step s0 a with
    | none => simp [hs] at hrun
    | some s1 =>
      rw [hs] at hrun
      exact ih ((step_atAccept hm hs).1 (hno a (List.mem_cons_self a rest))) hrun
        (fun b hb => hno b (List.mem_cons_of_mem a hb))

theorem run_exiting {s0 s : State} {sched : List Action} {e : Err}
    (hm : s0.main.exitWith = some e) (hrun : run s0 sched = some s) :
    s.main.exitWith = some e ∧ ∀ a ∈ sched, isAccept a = false := by
  induction sched generalizing s0 with
  | nil =>
    simp only [run, Option.some.injEq] at hrun
    exact ⟨hrun ▸ hm, fun a ha => by cases ha⟩
  | cons a rest ih =>
    simp only [run] at hrun
    cases hs : step s0 a with
    | none => simp [hs] at hrun
    | some s1 =>
      rw [hs] at hrun
      obtain ⟨h1, h2⟩ := step_exiting hm hs
      obtain ⟨h3, h4⟩ := ih h1 hrun
      refine ⟨h3, fun b hb => ?_⟩
      rcases List.mem_cons.1 hb with rfl | hb
      · exact h2
      · exact h4 b hb

theorem run_split {s0 s : State} {pre post : List Action} {a : Action}
    (hrun : run s0 (pre ++ a :: post) = some s) :
    ∃ s1 s2, run s0 pre = some s1 ∧ step s1 a = some s2 ∧ run s2 post = some s := by
  rw [run_append] at hrun
  cases h1 : run s0 pre with
  | none => simp [h1] at hrun
  | some s1 =>
    rw [h1] at hrun
    simp only [Option.some_bind, run] at hrun
    cases h2 : step s1 a with
    | none => simp [h2] at hrun
    | some s2 =>
      rw [h2] at hrun
      exact ⟨s1, s2, rfl, h2, hrun⟩

theorem run_unwind_returns (s : State) (e : Err) (hm : s.main = .unwinding e) :
    ∃ s1, run s (List.replicate (s.defers.length + 1) .mainUnwind) = some s1 ∧
      s1.main = .returned e := by
  generalize hn : s.defers.length = n
  induction n generalizing s with
  | zero =>
    have hd : s.defers = [] := List.length_eq_zero.1 hn
    refine ⟨afterUnwind s e, ?_, rfl⟩
    simp [run, step, hm, hd]
  | succ n ih =>
    obtain ⟨d, ds, hd⟩ := List.exists_cons_of_length_eq_add_one hn
    have hstep : step s .mainUnwind = some (runDeferred { s with defers := ds } d) := by
      simp [step, hm, hd]
    obtain ⟨s1, h1, h2⟩ := ih (runDeferred { s with defers := ds } d)
      (by rw [runDeferred_main]; exact hm)
      (by rw [runDeferred_defers]; simpa [hd] using hn)
    refine ⟨s1, ?_, h2⟩
    rw [List.replicate_succ, run, hstep]
    exact h1

theorem runDeferred_trace (s : State) (d : Deferred) :
    (runDeferred s d).trace = s.trace ++ [d.event] := by
  cases d <;> rfl

theorem deferred_event_facts (d : Deferred) :
    isTeardown d.event = true ∧ d.event ≠ .listened ∧ d.event ≠ .replInitialised := by
  cases d <;> simp [Deferred.event, isTeardown]

theorem workerLog_neutral (i : Nat) (r : Option Err) : (workerLog i r).neutral = true := by
  cases r with
  | none => rfl
  | some e =>
    simp only [workerLog]
    split <;> rfl

theorem filter_teardown_neutral (trace evs : List Event) (h : ∀ ev ∈ evs, ev.neutral = true) :
    (trace ++ evs).filter isTeardown = trace.filter isTeardown := by
  have : evs.filter isTeardown = [] := by
    rw [List.filter_eq_nil_iff]
    intro ev hev
    have := h ev hev
    simp only [Event.neutral, Bool.and_eq_true, Bool.not_eq_true', decide_eq_true_eq] at this
    simp [this.1.1]
  rw [List.filter_append, this, List.append_nil]

theorem mem_append_neutral (trace evs : List Event) (h : ∀ ev ∈ evs, ev.neutral = true) :
    (Event.listened ∈ trace ++ evs ↔ Event.listened ∈ trace) ∧
    (Event.replInitialised ∈ trace ++ evs ↔ Event.replInitialised ∈ trace) := by
  constructor
  · rw [List.mem_append]
    constructor
    · rintro (h1 | h1)
      · exact h1
      · have := h _ h1
        simp [Event.neutral] at this
    · exact Or.inl
  · rw [List.mem_append]
    constructor
    · rintro (h1 | h1)
      · exact h1
      · have := h _ h1
        simp [Event.neutral] at this
    · exact Or.inl

theorem expectedTeardown_neutral (trace evs : List Event) (h : ∀ ev ∈ evs, ev.neutral = true) :
    expectedTeardown (trace ++ evs) = expectedTeardown trace := by
  obtain ⟨h1, h2⟩ := mem_append_neutral trace evs h
  simp only [expectedTeardown, h1, h2]

/-- A step that leaves the deferred calls and the closes of `h.signal` alone and
adds only neutral events keeps the invariant of the main thread. -/
theorem mainInv_frame {s s1 : State} (hinv : MainInv s) (evs : List Event)
    (hd : s1.defers = s.defers) (hsc : s1.signalCloses = s.signalCloses)
    (ht : s1.trace = s.trace ++ evs) (hn : ∀ ev ∈ evs, ev.neutral = true)
    (hm : s1.main = s.main ∨ (s1.main ≠ .atListen ∧ s1.main ≠ .atInitReplication))
    (hr : s1.main.running = true → s.main.running = true)
    (hret : ∀ e, s1.main = .returned e → s.main = .returned e ∨ s.defers = []) :
    MainInv s1 := by
  obtain ⟨h1, h2⟩ := mem_append_neutral s.trace evs hn
  refine ⟨?_, ?_, ?_, ?_, ?_, ?_⟩
  · rw [ht, hd, filter_teardown_neutral _ _ hn, expectedTeardown_neutral _ _ hn]
    exact hinv.owed
  · intro h
    rcases hm with hm | hm
    · rw [ht, h1, h2]
      exact hinv.atListen (hm ▸ h)
    · exact absurd h hm.1
  · intro h
    rcases hm with hm | hm
    · rw [ht, h1, h2]
      exact hinv.atInit (hm ▸ h)
    · exact absurd h hm.2
  · rw [hsc, hd]
    exact hinv.signal
  · intro h
    rw [hsc, ht, filter_teardown_neutral _ _ hn]
    exact hinv.running (hr h)
  · intro e he
    rw [hd]
    rcases hret e he with h | h
    · exact hinv.returned e h
    · exact h

theorem mainInv_init : MainInv State.init := by
  refine ⟨?_, ?_, ?_, ?_, ?_, ?_⟩ <;> simp [State.init, expectedTeardown, Deferred.event, MainPC.running]

theorem mainReturn_inv {s : State} (hinv : MainInv s) (e : Err) : MainInv (mainReturn s e) :=
  mainInv_frame hinv [.returning e] rfl rfl rfl (by simp [Event.neutral, isTeardown])
    (Or.inr ⟨by simp [mainReturn], by simp [mainReturn]⟩) (by simp [mainReturn, MainPC.running])
    (by simp [mainReturn])

theorem mainInv_step {s s1 : State} {a : Action} (hinv : MainInv s) (h : step s a = some s1) :
    MainInv s1 := by
  cases a with
  | listen r =>
    obtain ⟨hm, ⟨rfl, rfl⟩ | ⟨e, rfl, rfl⟩⟩ := step_listen_inv h
    · obtain ⟨hl, hr⟩ := hinv.atListen hm
      obtain ⟨hsc, hf⟩ := hinv.running (by simp [hm, MainPC.running])
      have howed := hinv.owed
      simp only [hf, expectedTeardown, hl, hr, if_false, List.nil_append] at howed
      refine ⟨?_, ?_, ?_, ?_, ?_, ?_⟩
      · simp [afterListen, expectedTeardown, hf, hr, howed, isTeardown, Deferred.event]
      · simp [afterListen]
      · intro _
        simp [afterListen, hr]
      · have := hinv.signal
        simpa [afterListen, List.count_cons] using this
      · intro _
        simp [afterListen, hsc, hf, isTeardown]
      · simp [afterListen]
    · exact mainReturn_inv hinv _
  | initReplication r =>
    obtain ⟨hm, ⟨rfl, rfl⟩ | ⟨e, rfl, rfl⟩⟩ := step_initReplication_inv h
    · obtain ⟨hl, hr⟩ := hinv.atInit hm
      obtain ⟨hsc, hf⟩ := hinv.running (by simp [hm, MainPC.running])
      have howed := hinv.owed
      simp only [hf, expectedTeardown, hl, hr, if_false, if_true, List.nil_append] at howed
      refine ⟨?_, ?_, ?_, ?_, ?_, ?_⟩
      · simp [afterInitReplication, expectedTeardown, hf, hl, howed, isTeardown, Deferred.event]
      · simp [afterInitReplication]
      · simp [afterInitReplication]
      · have := hinv.signal
        simpa [afterInitReplication, List.count_cons] using this
      · intro _
        simp [afterInitReplication, hsc, hf, isTeardown]
      · simp [afterInitReplication]
    · exact mainReturn_inv hinv _
  | newHandlerTable r =>
    obtain ⟨hm, ⟨rfl, rfl⟩ | ⟨e, rfl, rfl⟩⟩ := step_newHandlerTable_inv h
    · exact mainInv_frame hinv [.daemonSpawned] rfl rfl rfl (by simp [Event.neutral, isTeardown])
        (Or.inr ⟨by simp [afterNewHandlerTable], by simp [afterNewHandlerTable]⟩)
        (by simp [hm, MainPC.running]) (by simp [afterNewHandlerTable])
    · exact mainReturn_inv hinv _
  | accept r =>
    obtain ⟨hm, ⟨rfl, rfl⟩ | ⟨e, rfl, rfl⟩⟩ := step_accept_inv h
    · exact mainInv_frame hinv [.accepted s.workers.length] rfl rfl rfl
        (by simp [Event.neutral, isTeardown]) (Or.inl rfl) (fun h => h) (fun e he => Or.inl he)
    · exact mainReturn_inv hinv _
  | mainUnwind =>
    obtain ⟨e, hm, ⟨d, ds, hd, rfl⟩ | ⟨hd, rfl⟩⟩ := step_mainUnwind_inv h
    · obtain ⟨ht, hl, hr⟩ := deferred_event_facts d
      have howed := hinv.owed
      have hsig := hinv.signal
      rw [hd] at howed hsig
      refine ⟨?_, ?_, ?_, ?_, ?_, ?_⟩
      · rw [runDeferred_trace, runDeferred_defers]
        simp only [List.filter_append, List.filter_cons, ht, if_true, List.filter_nil,
          List.append_assoc, List.singleton_append]
        simp only [List.map_cons] at howed
        rw [howed]
        simp only [expectedTeardown, List.mem_append, List.mem_singleton, hl.symm, hr.symm,
          or_false]
      · rw [runDeferred_main]
        simp [hm]
      · rw [runDeferred_main]
        simp [hm]
      · rw [runDeferred_defers]
        cases d <;> simp_all [runDeferred, List.count_cons]
        omega
      · rw [runDeferred_main]
        simp [hm, MainPC.running]
      · rw [runDeferred_main]
        simp [hm]
    · exact mainInv_frame hinv [.returned e] rfl rfl rfl (by simp [Event.neutral, isTeardown])
        (Or.inr ⟨by simp [afterUnwind], by simp [afterUnwind]⟩)
        (by simp [afterUnwind, MainPC.running]) (fun _ _ => Or.inr hd)
  | workerStart i =>
    obtain ⟨w, _, _, rfl⟩ := step_workerStart_inv h
    exact mainInv_frame hinv [.logNewConnection i] rfl rfl rfl (by simp [Event.neutral, isTeardown])
      (Or.inl rfl) (fun h => h) (fun e he => Or.inl he)
  | workerRegister i =>
    obtain ⟨w, _, _, rfl⟩ := step_workerRegister_inv h
    exact mainInv_frame hinv [] rfl rfl (by simp [afterWorkerRegister]) (by simp)
      (Or.inl rfl) (fun h => h) (fun e he => Or.inl he)
  | workerServeReturn i r =>
    obtain ⟨w, _, _, rfl⟩ := step_workerServeReturn_inv h
    exact mainInv_frame hinv [workerLog i r] rfl rfl rfl
      (by simpa using workerLog_neutral i r)
      (Or.inl rfl) (fun h => h) (fun e he => Or.inl he)
  | workerUnwind i =>
    obtain ⟨w, d, ds, _, _, _, rfl⟩ := step_workerUnwind_inv h
    cases d with
    | closeConn =>
      exact mainInv_frame hinv [.connClosed i] rfl rfl rfl (by simp [Event.neutral, isTeardown])
        (Or.inl rfl) (fun h => h) (fun e he => Or.inl he)
    | subClients =>
      exact mainInv_frame hinv [.clientsSub i] rfl rfl rfl (by simp [Event.neutral, isTeardown])
        (Or.inl rfl) (fun h => h) (fun e he => Or.inl he)

theorem mainInv_reachable {s : State} {sched : List Action}
    (hrun : run State.init sched = some s) : MainInv s :=
  run_invariant MainInv (fun _ _ _ hinv h => mainInv_step hinv h) State.init s sched mainInv_init hrun

theorem netClients_append (xs ys : List Worker) :
    netClients (xs ++ ys) = netClients xs + netClients ys := by
  induction xs with
  | nil => simp [netClients]
  | cons x rest ih =>
    show netClients (x :: (rest ++ ys)) = netClients (x :: rest) + netClients ys
    simp only [netClients, ih]
    omega

theorem netClients_set (ws : List Worker) (i : Nat) (w w1 : Worker) (h : ws[i]? = some w) :
    netClients (ws.set i w1) + ((w.adds : Int) - (w.subs : Int))
      = netClients ws + ((w1.adds : Int) - (w1.subs : Int)) := by
  induction ws generalizing i with
  | nil => simp at h
  | cons x rest ih =>
    cases i with
    | zero =>
      simp only [List.getElem?_cons_zero, Option.some.injEq] at h
      subst h
      simp only [List.set_cons_zero, netClients]
      omega
    | succ n =>
      simp only [List.getElem?_cons_succ] at h
      have := ih n h
      simp only [List.set_cons_succ, netClients]
      omega

theorem getElem?_set_cases (ws : List Worker) (i j : Nat) (w1 x : Worker)
    (h : (ws.set i w1)[j]? = some x) : (j = i ∧ x = w1) ∨ (j ≠ i ∧ ws[j]? = some x) := by
  by_cases hij : i = j
  · subst hij
    left
    have hlt : i < ws.length := by
      by_contra hge
      rw [List.getElem?_eq_none (by simpa using Nat.le_of_not_lt hge)] at h
      cases h
    rw [List.getElem?_set_self hlt] at h
    exact ⟨rfl, (Option.some.inj h).symm⟩
  · right
    rw [List.getElem?_set_ne hij] at h
    exact ⟨fun h2 => hij h2.symm, h⟩

theorem lifecycle_facts : ∀ w ∈ Worker.lifecycle,
    (w.pc = .spawned → w = Worker.fresh) ∧
    (w.pc = .serving → w = Worker.serving) ∧
    (w.pc = .exiting → ∀ ds, w.defers = .closeConn :: ds →
      w = Worker.served ∧ ds = [.subClients]) ∧
    (w.pc = .exiting → ∀ ds, w.defers = .subClients :: ds → w = Worker.closed ∧ ds = []) := by
  intro w hw
  simp only [Worker.lifecycle, List.mem_cons, List.mem_singleton,
    List.not_mem_nil, or_false] at hw
  rcases hw with rfl | rfl | rfl | rfl | rfl <;>
    simp [Worker.fresh, Worker.serving, Worker.served, Worker.closed, Worker.done]

theorem workersInv_init : WorkersInv State.init := by
  refine ⟨?_, ?_, ?_, ?_⟩ <;> simp [State.init, netClients]

theorem workersInv_set {s : State} (hinv : WorkersInv s) {i : Nat} {w : Worker}
    (hw : s.workers[i]? = some w) (w1 : Worker) (hw1 : w1 ∈ Worker.lifecycle)
    (clients1 : Int) (slaves1 : List Nat) (tr : List Event)
    (hc : clients1 + ((w.adds : Int) - (w.subs : Int)) =
      s.clients + ((w1.adds : Int) - (w1.subs : Int)))
    (hs : ∀ j, j ∈ slaves1 → (j = i ∧ w1.closes = 0) ∨ (j ≠ i ∧ j ∈ s.slaves)) :
    WorkersInv { s with workers := s.workers.set i w1, clients := clients1, slaves := slaves1,
                        trace := tr } := by
  refine ⟨?_, ?_, ?_, ?_⟩
  · intro x hx
    rcases List.mem_or_eq_of_mem_set hx with hx | rfl
    · exact hinv.lifecycle x hx
    · exact hw1
  · have h1 := netClients_set s.workers i w w1 hw
    have h2 := hinv.clients
    show clients1 = netClients (s.workers.set i w1)
    omega
  · show s.clientsAccepted = ((s.workers.set i w1).length : Int)
    rw [List.length_set]
    exact hinv.accepted
  · intro j x hx hj
    rcases getElem?_set_cases s.workers i j w1 x hx with ⟨rfl, rfl⟩ | ⟨hne, hx⟩
    · rcases hs j hj with ⟨_, h0⟩ | ⟨hne, _⟩
      · exact h0
      · exact absurd rfl hne
    · rcases hs j hj with ⟨rfl, _⟩ | ⟨_, hj⟩
      · exact absurd rfl hne
      · exact hinv.slaves j x hx hj

theorem workersInv_frame {s s1 : State} (hinv : WorkersInv s) (hw : s1.workers = s.workers)
    (hc : s1.clients = s.clients) (ha : s1.clientsAccepted = s.clientsAccepted)
    (hs : ∀ j, j ∈ s1.slaves → j ∈ s.slaves) : WorkersInv s1 := by
  refine ⟨?_, ?_, ?_, ?_⟩
  · rw [hw]
    exact hinv.lifecycle
  · rw [hw, hc]
    exact hinv.clients
  · rw [hw, ha]
    exact hinv.accepted
  · intro j x hx hj
    rw [hw] at hx
    exact hinv.slaves j x hx (hs j hj)

theorem workersInv_step {s s1 : State} {a : Action} (hinv : WorkersInv s)
    (h : step s a = some s1) : WorkersInv s1 := by
  cases a with
  | listen r =>
    obtain ⟨_, ⟨rfl, rfl⟩ | ⟨e, rfl, rfl⟩⟩ := step_listen_inv h
    · exact workersInv_frame hinv rfl rfl rfl (fun _ hj => hj)
    · exact workersInv_frame hinv rfl rfl rfl (fun _ hj => hj)
  | initReplication r =>
    obtain ⟨_, ⟨rfl, rfl⟩ | ⟨e, rfl, rfl⟩⟩ := step_initReplication_inv h
    · exact workersInv_frame hinv rfl rfl rfl (fun _ hj => hj)
    · exact workersInv_frame hinv rfl rfl rfl (fun _ hj => hj)
  | newHandlerTable r =>
    obtain ⟨_, ⟨rfl, rfl⟩ | ⟨e, rfl, rfl⟩⟩ := step_newHandlerTable_inv h
    · exact workersInv_frame hinv rfl rfl rfl (fun _ hj => hj)
    · exact workersInv_frame hinv rfl rfl rfl (fun _ hj => hj)
  | accept r =>
    obtain ⟨_, ⟨rfl, rfl⟩ | ⟨e, rfl, rfl⟩⟩ := step_accept_inv h
    · refine ⟨?_, ?_, ?_, ?_⟩
      · intro x hx
        simp only [afterAccept, List.mem_append, List.mem_singleton] at hx
        rcases hx with hx | rfl
        · exact hinv.lifecycle x hx
        · simp [Worker.lifecycle]
      · have := hinv.clients
        simp only [afterAccept, netClients_append, netClients, Worker.fresh]
        omega
      · have := hinv.accepted
        simp only [afterAccept, List.length_append, List.length_singleton, Nat.cast_add,
          Nat.cast_one]
        omega
      · intro j x hx hj
        simp only [afterAccept] at hx hj
        by_cases hlt : j < s.workers.length
        · rw [List.getElem?_append_left hlt] at hx
          exact hinv.slaves j x hx hj
        · have hge : s.workers.length ≤ j := Nat.le_of_not_lt hlt
          rw [List.getElem?_append_right hge] at hx
          cases hk : j - s.workers.length with
          | zero =>
            rw [hk] at hx
            simp only [List.getElem?_cons_zero, Option.some.injEq] at hx
            subst hx
            rfl
          | succ n =>
            rw [hk] at hx
            simp at hx
    · exact workersInv_frame hinv rfl rfl rfl (fun _ hj => hj)
  | mainUnwind =>
    obtain ⟨e, _, ⟨d, ds, _, rfl⟩ | ⟨_, rfl⟩⟩ := step_mainUnwind_inv h
    · cases d with
      | closeSignal => exact workersInv_frame hinv rfl rfl rfl (fun _ hj => hj)
      | closeListener => exact workersInv_frame hinv rfl rfl rfl (fun _ hj => hj)
      | closeReplication =>
        exact workersInv_frame hinv rfl rfl rfl (fun _ hj => by simp [runDeferred] at hj)
    · exact workersInv_frame hinv rfl rfl rfl (fun _ hj => hj)
  | workerStart i =>
    obtain ⟨w, hw, hpc, rfl⟩ := step_workerStart_inv h
    have hwf := (lifecycle_facts w (hinv.lifecycle w (List.getElem?_mem hw))).1 hpc
    subst hwf
    exact workersInv_set hinv hw Worker.serving (by simp [Worker.lifecycle]) _ _ _
      (by simp [Worker.fresh, Worker.serving]) (fun j hj => by
        by_cases hji : j = i
        · exact Or.inl ⟨hji, rfl⟩
        · exact Or.inr ⟨hji, hj⟩)
  | workerRegister i =>
    obtain ⟨w, hw, hpc, rfl⟩ := step_workerRegister_inv h
    have hwf := (lifecycle_facts w (hinv.lifecycle w (List.getElem?_mem hw))).2.1 hpc
    refine ⟨hinv.lifecycle, hinv.clients, hinv.accepted, ?_⟩
    intro j x hx hj
    simp only [afterWorkerRegister] at hx hj
    have hj2 : j = i ∨ j ∈ s.slaves := by
      split at hj
      · exact Or.inr hj
      · exact List.mem_cons.1 hj
    rcases hj2 with rfl | hj2
    · rw [hw] at hx
      have hxw : w = x := Option.some.inj hx
      rw [← hxw, hwf]
      rfl
    · exact hinv.slaves j x hx hj2
  | workerServeReturn i r =>
    obtain ⟨w, hw, hpc, rfl⟩ := step_workerServeReturn_inv h
    have hwf := (lifecycle_facts w (hinv.lifecycle w (List.getElem?_mem hw))).2.1 hpc
    subst hwf
    exact workersInv_set hinv hw Worker.served (by simp [Worker.lifecycle]) _ _ _
      (by simp [Worker.serving, Worker.served]) (fun j hj => by
        by_cases hji : j = i
        · exact Or.inl ⟨hji, rfl⟩
        · exact Or.inr ⟨hji, hj⟩)
  | workerUnwind i =>
    obtain ⟨w, d, ds, hw, hpc, hd, rfl⟩ := step_workerUnwind_inv h
    have hfacts := lifecycle_facts w (hinv.lifecycle w (List.getElem?_mem hw))
    cases d with
    | closeConn =>
      obtain ⟨hwf, hds⟩ := hfacts.2.2.1 hpc ds hd
      subst hwf
      subst hds
      exact workersInv_set hinv hw Worker.closed (by simp [Worker.lifecycle]) _ _ _
        (by simp [Worker.served, Worker.closed]) (fun j hj => by
          simp only [List.mem_filter, decide_eq_true_eq] at hj
          exact Or.inr ⟨hj.2, hj.1⟩)
    | subClients =>
      obtain ⟨hwf, hds⟩ := hfacts.2.2.2 hpc ds hd
      subst hwf
      subst hds
      exact workersInv_set hinv hw Worker.done (by simp [Worker.lifecycle]) _ _ _
        (by simp [Worker.closed, Worker.done]) (fun j hj => by
          by_cases hji : j = i
          · subst hji
            have := hinv.slaves j _ hw hj
            simp [Worker.closed] at this
          · exact Or.inr ⟨hji, hj⟩)

theorem workersInv_reachable {s : State} {sched : List Action}
    (hrun : run State.init sched = some s) : WorkersInv s :=
  run_invariant WorkersInv (fun _ _ _ hinv h => workersInv_step hinv h) State.init s sched
    workersInv_init hrun

theorem isAcceptFail_eq {a : Action} (h : isAcceptFail a = true) : ∃ e, a = .accept (some e) := by
  cases a with
  | accept r =>
    cases r with
    | none => simp [isAcceptFail] at h
    | some e => exact ⟨e, rfl⟩
  | _ => simp [isAcceptFail] at h

theorem exitWith_cases {m : MainPC} {e : Err} (h : m.exitWith = some e) :
    m = .unwinding e ∨ m = .returned e := by
  cases m <;> simp_all [MainPC.exitWith]

/-- C3: from a state of the accept loop, whatever the workers do, the main
thread is still in the loop exactly when no `Accept` has failed; a failed
`Accept` is the first and only one, no `Accept` follows it, `Serve` executes
`return errors.Trace(err)` with its error and returns that value once its
deferred calls have run; and the return of `c.serve` in a worker, with any
outcome, only adds a log line. -/
theorem serve_accept_loop (s0 s : State) (sched : List Action) (h0 : s0.main = .atAccept)
    (hrun : run s0 sched = some s) :
    (s.main = .atAccept ↔ ∀ a ∈ sched, isAcceptFail a = false) ∧
    (∀ pre post e, sched = pre ++ .accept (some e) :: post →
      (∀ a ∈ pre, isAcceptFail a = false) ∧ (∀ a ∈ post, isAccept a = false) ∧
      (s.main = .returned (.trace e) ∨
        (s.main = .unwinding (.trace e) ∧
          ∃ s1, run s (List.replicate (s.defers.length + 1) .mainUnwind) = some s1 ∧
            s1.main = .returned (.trace e)))) ∧
    (∀ i r s1, step s (.workerServeReturn i r) = some s1 →
      s1.main = s.main ∧ s1.defers = s.defers ∧ s1.clientsAccepted = s.clientsAccepted ∧
        s1.clients = s.clients ∧ s1.trace = s.trace ++ [workerLog i r]) := by
  have hsplit : ∀ pre post e, sched = pre ++ .accept (some e) :: post →
      (∀ a ∈ pre, isAcceptFail a = false) ∧ (∀ a ∈ post, isAccept a = false) ∧
        s.main.exitWith = some (.trace e) := by
    intro pre post e hs
    subst hs
    obtain ⟨s1, s2, hpre, hstep, hpost⟩ := run_split hrun
    have hs1 : s1.main = .atAccept := (step_accept_inv hstep).1
    have hs2 : s2.main.exitWith = some (.trace e) := by
      rw [(step_atAccept hs1 hstep).2 e rfl]
      rfl
    obtain ⟨hfin, hnone⟩ := run_exiting hs2 hpost
    refine ⟨?_, hnone, hfin⟩
    intro a ha
    by_contra hfail
    obtain ⟨e2, rfl⟩ := isAcceptFail_eq (by simpa using hfail)
    obtain ⟨p1, p2, rfl⟩ := List.append_of_mem ha
    obtain ⟨t1, t2, hp1, hst, hp2⟩ := run_split hpre
    have ht1 : t1.main = .atAccept := (step_accept_inv hst).1
    have ht2 : t2.main.exitWith = some (.trace e2) := by
      rw [(step_atAccept ht1 hst).2 e2 rfl]
      rfl
    have := (run_exiting ht2 hp2).1
    rw [hs1] at this
    simp [MainPC.exitWith] at this
  refine ⟨⟨?_, fun hno => run_atAccept h0 hrun hno⟩, ?_, ?_⟩
  · intro hm a ha
    by_contra hfail
    obtain ⟨e, rfl⟩ := isAcceptFail_eq (by simpa using hfail)
    obtain ⟨pre, post, hs⟩ := List.append_of_mem ha
    have := (hsplit pre post e hs).2.2
    rw [hm] at this
    simp [MainPC.exitWith] at this
  · intro pre post e hs
    obtain ⟨h1, h2, h3⟩ := hsplit pre post e hs
    refine ⟨h1, h2, ?_⟩
    rcases exitWith_cases h3 with hm | hm
    · exact Or.inr ⟨hm, run_unwind_returns s _ hm⟩
    · exact Or.inl hm
  · intro i r s1 hstep
    obtain ⟨w, _, _, rfl⟩ := step_workerServeReturn_inv hstep
    exact ⟨rfl, rfl, rfl, rfl, rfl⟩

/-- Witness for C3: one connection is accepted, its worker fails with an error,
a second `Accept` fails with error 1: `Serve` is returning `errors.Trace` of
error 1, and returns it after its three deferred calls. -/
theorem serve_accept_loop_witness :
    ∃ s, run (afterNewHandlerTable (afterInitReplication (afterListen State.init)))
        [.accept none, .workerStart 0, .workerServeReturn 0 (some (.code 7)),
          .accept (some (.code 1)), .workerUnwind 0] = some s ∧
      s.main = .unwinding (.trace (.code 1)) ∧
      ∃ s1, run s (List.replicate (s.defers.length + 1) .mainUnwind) = some s1 ∧
        s1.main = .returned (.trace (.code 1)) :=
  ⟨_, rfl, ((serve_accept_loop
      (afterNewHandlerTable (afterInitReplication (afterListen State.init))) _
      [.accept none, .workerStart 0, .workerServeReturn 0 (some (.code 7)),
        .accept (some (.code 1)), .workerUnwind 0] rfl rfl).2.1
      [.accept none, .workerStart 0, .workerServeReturn 0 (some (.code 7))]
      [.workerUnwind 0] (.code 1) rfl).2.2.resolve_left (by decide)⟩

theorem step_clientsAccepted {s s1 : State} {a : Action} (h : step s a = some s1) :
    s1.clientsAccepted = s.clientsAccepted + (if isAcceptOk a = true then 1 else 0) := by
  cases a with
  | listen r =>
    obtain ⟨_, ⟨rfl, rfl⟩ | ⟨e, rfl, rfl⟩⟩ := step_listen_inv h <;>
      simp [isAcceptOk, afterListen, mainReturn]
  | initReplication r =>
    obtain ⟨_, ⟨rfl, rfl⟩ | ⟨e, rfl, rfl⟩⟩ := step_initReplication_inv h <;>
      simp [isAcceptOk, afterInitReplication, mainReturn]
  | newHandlerTable r =>
    obtain ⟨_, ⟨rfl, rfl⟩ | ⟨e, rfl, rfl⟩⟩ := step_newHandlerTable_inv h <;>
      simp [isAcceptOk, afterNewHandlerTable, mainReturn]
  | accept r =>
    obtain ⟨_, ⟨rfl, rfl⟩ | ⟨e, rfl, rfl⟩⟩ := step_accept_inv h <;>
      simp [isAcceptOk, afterAccept, mainReturn]
  | mainUnwind =>
    obtain ⟨e, _, ⟨d, ds, _, rfl⟩ | ⟨_, rfl⟩⟩ := step_mainUnwind_inv h
    · cases d <;> simp [isAcceptOk, runDeferred]
    · simp [isAcceptOk, afterUnwind]
  | workerStart i =>
    simp [isAcceptOk, (worker_step_frame h ⟨i, Or.inl rfl⟩).2.2.1]
  | workerRegister i =>
    simp [isAcceptOk, (worker_step_frame h ⟨i, Or.inr (Or.inl rfl)⟩).2.2.1]
  | workerServeReturn i r =>
    simp [isAcceptOk, (worker_step_frame h ⟨i, Or.inr (Or.inr (Or.inl ⟨r, rfl⟩))⟩).2.2.1]
  | workerUnwind i =>
    simp [isAcceptOk, (worker_step_frame h ⟨i, Or.inr (Or.inr (Or.inr rfl))⟩).2.2.1]

theorem run_clientsAccepted {s0 s : State} {sched : List Action}
    (hrun : run s0 sched = some s) :
    s.clientsAccepted = s0.clientsAccepted + (sched.countP isAcceptOk : Int) := by
  induction sched generalizing s0 with
  | nil =>
    simp only [run, Option.some.injEq] at hrun
    subst hrun
    simp
  | cons a rest ih =>
    simp only [run] at hrun
    cases hs : step s0 a with
    | none => simp [hs] at hrun
    | some s1 =>
      rw [hs] at hrun
      rw [ih hrun, step_clientsAccepted hs, List.countP_cons]
      split
      · simp only [Nat.cast_add, Nat.cast_one]
        omega
      · simp

theorem netClients_eq_active (ws : List Worker) (h : ∀ w ∈ ws, w ∈ Worker.lifecycle) :
    netClients ws = (ws.countP Worker.active : Int) := by
  induction ws with
  | nil => rfl
  | cons w rest ih =>
    have hrest := ih (fun x hx => h x (List.mem_cons_of_mem w hx))
    have hw := h w (List.mem_cons_self w rest)
    simp only [netClients, hrest, List.countP_cons]
    simp only [Worker.lifecycle, List.mem_cons, List.mem_singleton, List.not_mem_nil,
      or_false] at hw
    rcases hw with rfl | rfl | rfl | rfl | rfl <;>
      simp [Worker.fresh, Worker.serving, Worker.served, Worker.closed, Worker.done,
        Worker.active, Worker.started, Worker.ended, Int.add_comm]

theorem lifecycle_counts : ∀ w ∈ Worker.lifecycle,
    w.adds = (if w.started = true then 1 else 0) ∧ w.subs = (if w.ended = true then 1 else 0) ∧
    w.closes ≤ 1 ∧ w.subs ≤ w.closes ∧ (w.closes = 1 → w.pc = .exiting) ∧
    (w.ended = true → w.closes = 1) := by
  decide

/-- C4: in every state reached from the start of `Serve`, `clientsAccepted` is
the number of successful `Accept` calls so far (one worker each) and no step
decreases it; `clients` is the number of workers that have started and not yet
ended, so `0 <= clients <= clientsAccepted`; and every worker has incremented
`clients` once if it has started and decremented it once if it has ended, and
not otherwise. -/
theorem connection_counters (sched : List Action) (s : State)
    (hrun : run State.init sched = some s) :
    s.clientsAccepted = (sched.countP isAcceptOk : Int) ∧
    s.workers.length = sched.countP isAcceptOk ∧
    (∀ a s1, step s a = some s1 → s.clientsAccepted ≤ s1.clientsAccepted) ∧
    s.clients = (s.workers.countP Worker.active : Int) ∧
    0 ≤ s.clients ∧ s.clients ≤ s.clientsAccepted ∧
    (∀ w ∈ s.workers, w.adds = (if w.started = true then 1 else 0) ∧
      w.subs = (if w.ended = true then 1 else 0)) := by
  have hinv := workersInv_reachable hrun
  have hacc : s.clientsAccepted = (sched.countP isAcceptOk : Int) := by
    have := run_clientsAccepted hrun
    simpa [State.init] using this
  have hcl : s.clients = (s.workers.countP Worker.active : Int) := by
    rw [hinv.clients, netClients_eq_active _ hinv.lifecycle]
  have hle : s.workers.countP Worker.active ≤ s.workers.length := List.countP_le_length _
  have hlen := hinv.accepted
  refine ⟨hacc, ?_, ?_, hcl, ?_, ?_, ?_⟩
  · have : (s.workers.length : Int) = (sched.countP isAcceptOk : Int) := by
      rw [← hlen, hacc]
    exact_mod_cast this
  · intro a s1 hstep
    rw [step_clientsAccepted hstep]
    split <;> omega
  · rw [hcl]
    exact Int.ofNat_nonneg _
  · rw [hcl, hlen]
    exact_mod_cast hle
  · intro w hw
    obtain ⟨h1, h2, _⟩ := lifecycle_counts w (hinv.lifecycle w hw)
    exact ⟨h1, h2⟩

/-- Witness for C4: two connections accepted, both workers started, the first
one ended: `clientsAccepted` is 2 and `clients` is 1. -/
theorem connection_counters_witness :
    ∃ s, run State.init [.listen none, .initReplication none, .newHandlerTable none,
        .accept none, .workerStart 0, .accept none, .workerServeReturn 0 none,
        .workerStart 1, .workerUnwind 0, .workerUnwind 0] = some s ∧
      s.clientsAccepted = 2 ∧ s.clients = 1 ∧
      s.clients = (s.workers.countP Worker.active : Int) :=
  ⟨_, rfl, by decide, by decide,
    (connection_counters [.listen none, .initReplication none, .newHandlerTable none,
        .accept none, .workerStart 0, .accept none, .workerServeReturn 0 none,
        .workerStart 1, .workerUnwind 0, .workerUnwind 0] _ rfl).2.2.2.1⟩

theorem getElem?_lt {ws : List Worker} {i : Nat} {w : Worker} (h : ws[i]? = some w) :
    i < ws.length := by
  by_contra hge
  rw [List.getElem?_eq_none (by simpa using Nat.le_of_not_lt hge)] at h
  cases h

/-- C5: for every worker of a state reached from the start of `Serve`:
`c.Close()` has been called at most once, not before `c.serve` has returned and
not after the decrement of `clients`; once it is called the connection is not
in `h.repl.slaves`; a worker that has ended has called it once; and from a
worker inside `c.serve`, for every outcome `r` of `c.serve`, the worker's next
steps are the close of the connection, which leaves `clients` as it is and the
connection out of `h.repl.slaves`, then the decrement of `clients`, and then
nothing. -/
theorem worker_closes_once (sched : List Action) (s : State)
    (hrun : run State.init sched = some s) (i : Nat) (w : Worker)
    (hw : s.workers[i]? = some w) :
    w.closes ≤ 1 ∧ w.subs ≤ w.closes ∧
    (w.closes = 1 → w.pc = .exiting ∧ i ∉ s.slaves) ∧
    (w.ended = true → w.closes = 1) ∧
    (w.pc = .serving → ∀ r, ∃ s1 s2 s3,
      step s (.workerServeReturn i r) = some s1 ∧ s1.workers[i]? = some Worker.served ∧
      step s1 (.workerUnwind i) = some s2 ∧ s2.workers[i]? = some Worker.closed ∧
      s2.clients = s.clients ∧ i ∉ s2.slaves ∧
      step s2 (.workerUnwind i) = some s3 ∧ s3.workers[i]? = some Worker.done ∧
      s3.clients = s.clients - 1 ∧ i ∉ s3.slaves ∧
      step s3 (.workerUnwind i) = none) := by
  have hinv := workersInv_reachable hrun
  have hlc := hinv.lifecycle w (List.getElem?_mem hw)
  obtain ⟨_, _, h1, h2, h3, h4⟩ := lifecycle_counts w hlc
  refine ⟨h1, h2, ?_, h4, ?_⟩
  · intro hc
    refine ⟨h3 hc, fun hmem => ?_⟩
    have := hinv.slaves i w hw hmem
    omega
  · intro hpc r
    have hwf := (lifecycle_facts w hlc).2.1 hpc
    subst hwf
    have hlt : i < s.workers.length := getElem?_lt hw
    have hset : ∀ (ws : List Worker) (x : Worker), i < ws.length → (ws.set i x)[i]? = some x :=
      fun ws x h => List.getElem?_set_self h
    refine ⟨afterServeReturn s i Worker.serving r,
      runWDeferred (afterServeReturn s i Worker.serving r) i
        { Worker.served with defers := [.subClients] } .closeConn,
      runWDeferred (runWDeferred (afterServeReturn s i Worker.serving r) i
        { Worker.served with defers := [.subClients] } .closeConn) i
        { Worker.closed with defers := [] } .subClients, ?_, ?_, ?_, ?_, ?_, ?_, ?_, ?_, ?_, ?_, ?_⟩
    · simp [step, hw, Worker.serving]
    · exact hset _ _ hlt
    · have : (afterServeReturn s i Worker.serving r).workers[i]? = some Worker.served :=
        hset _ _ hlt
      simp [step, this, Worker.served]
    · exact hset _ _ (by simpa [afterServeReturn] using hlt)
    · rfl
    · simp [runWDeferred]
    · have : (runWDeferred (afterServeReturn s i Worker.serving r) i
          { Worker.served with defers := [.subClients] } .closeConn).workers[i]?
            = some Worker.closed :=
        hset _ _ (by simpa [afterServeReturn] using hlt)
      simp [step, this, Worker.closed]
    · exact hset _ _ (by simpa [afterServeReturn, runWDeferred] using hlt)
    · rfl
    · simp [runWDeferred]
    · have : (runWDeferred (runWDeferred (afterServeReturn s i Worker.serving r) i
          { Worker.served with defers := [.subClients] } .closeConn) i
          { Worker.closed with defers := [] } .subClients).workers[i]? = some Worker.done :=
        hset _ _ (by simpa [afterServeReturn, runWDeferred] using hlt)
      simp [step, this, Worker.done]

/-- Witness for C5: a connection registered as a slave whose `c.serve` ends
with `io.EOF`: after the worker's two deferred calls it has closed its
connection once and the connection is not in `h.repl.slaves`. -/
theorem worker_closes_once_witness :
    ∃ s, run State.init [.listen none, .initReplication none, .newHandlerTable none,
        .accept none, .workerStart 0, .workerRegister 0, .workerServeReturn 0 (some .eof),
        .workerUnwind 0, .workerUnwind 0] = some s ∧
      s.workers[0]? = some Worker.done ∧
      Worker.done.closes ≤ 1 ∧ Worker.done.subs ≤ Worker.done.closes ∧
      (Worker.done.closes = 1 → Worker.done.pc = .exiting ∧ 0 ∉ s.slaves) :=
  ⟨_, rfl, rfl,
    (worker_closes_once [.listen none, .initReplication none, .newHandlerTable none,
        .accept none, .workerStart 0, .workerRegister 0, .workerServeReturn 0 (some .eof),
        .workerUnwind 0, .workerUnwind 0] _ rfl 0 Worker.done rfl).1,
    (worker_closes_once [.listen none, .initReplication none, .newHandlerTable none,
        .accept none, .workerStart 0, .workerRegister 0, .workerServeReturn 0 (some .eof),
        .workerUnwind 0, .workerUnwind 0] _ rfl 0 Worker.done rfl).2.1,
    (worker_closes_once [.listen none, .initReplication none, .newHandlerTable none,
        .accept none, .workerStart 0, .workerRegister 0, .workerServeReturn 0 (some .eof),
        .workerUnwind 0, .workerUnwind 0] _ rfl 0 Worker.done rfl).2.2.1⟩

theorem deferred_event_closeSignal {d : Deferred} (h : d.event = .closeSignal) :
    d = .closeSignal := by
  cases d <;> simp_all [Deferred.event]

/-- Once `h.signal` is closed no deferred call of `Serve` is left. -/
theorem mainInv_signal_last {s : State} (hinv : MainInv s) (h : s.signalCloses = 1) :
    s.defers = [] := by
  rcases List.eq_nil_or_concat s.defers with hnil | ⟨ds, d, hd⟩
  · exact hnil
  · exfalso
    have howed := hinv.owed
    have hsig := hinv.signal
    rw [hd] at howed hsig
    simp only [List.concat_eq_append, List.map_append, List.map_cons, List.map_nil,
      expectedTeardown, ← List.append_assoc] at howed
    have hlast := (List.append_inj' howed rfl).2
    simp only [List.cons.injEq, and_true] at hlast
    have hdd := deferred_event_closeSignal hlast
    subst hdd
    simp only [List.concat_eq_append, List.count_append, List.count_cons_self,
      List.count_nil] at hsig
    omega

theorem step_leaves_running {s s1 : State} {a : Action} (h : step s a = some s1)
    (hr : s.main.running = true) (hr1 : s1.main.running = false) :
    (∃ e, (a = .listen (some e) ∨ a = .initReplication (some e) ∨ a = .accept (some e)) ∧
      s1.main = .unwinding (.trace e)) ∨
    (∃ e, a = .newHandlerTable (some e) ∧ s1.main = .unwinding e) := by
  cases a with
  | listen r =>
    obtain ⟨_, ⟨rfl, rfl⟩ | ⟨e, rfl, rfl⟩⟩ := step_listen_inv h
    · simp [afterListen, MainPC.running] at hr1
    · exact Or.inl ⟨e, Or.inl rfl, rfl⟩
  | initReplication r =>
    obtain ⟨_, ⟨rfl, rfl⟩ | ⟨e, rfl, rfl⟩⟩ := step_initReplication_inv h
    · simp [afterInitReplication, MainPC.running] at hr1
    · exact Or.inl ⟨e, Or.inr (Or.inl rfl), rfl⟩
  | newHandlerTable r =>
    obtain ⟨_, ⟨rfl, rfl⟩ | ⟨e, rfl, rfl⟩⟩ := step_newHandlerTable_inv h
    · simp [afterNewHandlerTable, MainPC.running] at hr1
    · exact Or.inr ⟨e, rfl, rfl⟩
  | accept r =>
    obtain ⟨hm, ⟨rfl, rfl⟩ | ⟨e, rfl, rfl⟩⟩ := step_accept_inv h
    · simp [afterAccept, hm, MainPC.running] at hr1
    · exact Or.inl ⟨e, Or.inr (Or.inr rfl), rfl⟩
  | mainUnwind =>
    obtain ⟨e, hm, _⟩ := step_mainUnwind_inv h
    simp [hm, MainPC.running] at hr
  | workerStart i =>
    rw [(worker_step_frame h ⟨i, Or.inl rfl⟩).1, hr] at hr1
    cases hr1
  | workerRegister i =>
    rw [(worker_step_frame h ⟨i, Or.inr (Or.inl rfl)⟩).1, hr] at hr1
    cases hr1
  | workerServeReturn i r =>
    rw [(worker_step_frame h ⟨i, Or.inr (Or.inr (Or.inl ⟨r, rfl⟩))⟩).1, hr] at hr1
    cases hr1
  | workerUnwind i =>
    rw [(worker_step_frame h ⟨i, Or.inr (Or.inr (Or.inr rfl))⟩).1, hr] at hr1
    cases hr1

/-- C6: in every state reached from the start of `Serve`, `h.signal` has been
closed at most once and not at all before a `return` statement; the only steps
that leave the running part of `Serve` are the four failures (listen,
initReplication, handler table, accept), each of them a `return`; after a
`return` the deferred calls run to the end and `Serve` returns; when it has
returned `h.signal` has been closed exactly once and the teardown calls executed
are `closeReplication` (if replication was initialised), the close of the
listener (if it was opened) and the close of `h.signal`, in this order; and
once `h.signal` is closed no deferred call is left to run. -/
theorem signal_closed_once (sched : List Action) (s : State)
    (hrun : run State.init sched = some s) :
    s.signalCloses ≤ 1 ∧
    (s.main.running = true → s.signalCloses = 0 ∧ s.trace.filter isTeardown = []) ∧
    (∀ a s1, step s a = some s1 → s.main.running = true → s1.main.running = false →
      (∃ e, (a = .listen (some e) ∨ a = .initReplication (some e) ∨ a = .accept (some e)) ∧
        s1.main = .unwinding (.trace e)) ∨
      (∃ e, a = .newHandlerTable (some e) ∧ s1.main = .unwinding e)) ∧
    (∀ e, s.main = .unwinding e →
      ∃ s1, run s (List.replicate (s.defers.length + 1) .mainUnwind) = some s1 ∧
        s1.main = .returned e) ∧
    (∀ e, s.main = .returned e →
      s.signalCloses = 1 ∧ s.trace.filter isTeardown = expectedTeardown s.trace) ∧
    (s.signalCloses = 1 → s.defers = []) := by
  have hinv := mainInv_reachable hrun
  refine ⟨?_, hinv.running, fun a s1 h => step_leaves_running h,
    fun e he => run_unwind_returns s e he, ?_, mainInv_signal_last hinv⟩
  · have := hinv.signal
    omega
  · intro e he
    have hd := hinv.returned e he
    have howed := hinv.owed
    have hsig := hinv.signal
    rw [hd] at howed hsig
    simp only [List.map_nil, List.append_nil] at howed
    simp only [List.count_nil] at hsig
    exact ⟨by omega, howed⟩

/-- Witness for C6: a run in which the second `Accept` fails: `Serve` returns
after `closeReplication`, the close of the listener and the close of
`h.signal`, in this order, and `h.signal` has been closed once. -/
theorem signal_closed_once_witness :
    ∃ s, run State.init [.listen none, .initReplication none, .newHandlerTable none,
        .accept none, .workerStart 0, .accept (some (.code 1)), .mainUnwind, .mainUnwind,
        .mainUnwind, .mainUnwind] = some s ∧
      s.main = .returned (.trace (.code 1)) ∧
      s.trace.filter isTeardown = [.closeReplication, .closeListener, .closeSignal] ∧
      s.signalCloses = 1 ∧ s.trace.filter isTeardown = expectedTeardown s.trace :=
  ⟨_, rfl, rfl, by decide,
    (signal_closed_once [.listen none, .initReplication none, .newHandlerTable none,
        .accept none, .workerStart 0, .accept (some (.code 1)), .mainUnwind, .mainUnwind,
        .mainUnwind, .mainUnwind] _ rfl).2.2.2.2.1 (.trace (.code 1)) rfl⟩

/-- The other return paths of `Serve`: a failed `net.Listen` closes `h.signal`
only; a failed `h.initReplication` closes the listener, then `h.signal`; a
failed `handler.NewHandlerTable` runs all three teardown calls and returns the
error without a trace. -/
theorem serve_return_paths :
    (run State.init [.listen (some (.code 1)), .mainUnwind, .mainUnwind]).map
        (fun s => (s.main, s.trace.filter isTeardown, s.signalCloses))
      = some (.returned (.trace (.code 1)), [.closeSignal], 1) ∧
    (run State.init [.listen none, .initReplication (some (.code 2)), .mainUnwind, .mainUnwind,
        .mainUnwind]).map (fun s => (s.main, s.trace.filter isTeardown, s.signalCloses))
      = some (.returned (.trace (.code 2)), [.closeListener, .closeSignal], 1) ∧
    (run State.init [.listen none, .initReplication none, .newHandlerTable (some (.code 3)),
        .mainUnwind, .mainUnwind, .mainUnwind, .mainUnwind]).map
        (fun s => (s.main, s.trace.filter isTeardown, s.signalCloses))
      = some (.returned (.code 3), [.closeReplication, .closeListener, .closeSignal], 1) := by
  decide

end Qdb
